import Mathlib

/-!
Verification of the rosbag storage engine (`src/bag.cpp`) against its
specification.  The on-disk format is modelled at byte level: a file (or a
decompressed chunk) is a `List Nat` of byte values, records are encoded and
parsed exactly as `ros::Header::write` / `ros::Header::parse` and the
`Bag` record I/O routines do.  Machine integers are `Nat` with explicit
`% 2 ^ 32` / `% 2 ^ 64` where the code truncates.
-/

namespace Rosbag

/-- ASCII bytes of a string literal (all names and values in the format are
ASCII, where `Char.toNat` coincides with the byte encoding). -/
def strBytes (s : String) : List Nat :=
  s.data.map Char.toNat

/-- Little-endian bytes of a `uint32_t`, as produced by `memcpy` of the value
(`Bag::toHeaderString` and the raw 4-byte `write` calls). -/
def u32le (n : Nat) : List Nat :=
  [n % 256, n / 256 % 256, n / 256 ^ 2 % 256, n / 256 ^ 3 % 256]

/-- Little-endian bytes of a `uint64_t`. -/
def u64le (n : Nat) : List Nat :=
  [n % 256, n / 256 % 256, n / 256 ^ 2 % 256, n / 256 ^ 3 % 256,
   n / 256 ^ 4 % 256, n / 256 ^ 5 % 256, n / 256 ^ 6 % 256, n / 256 ^ 7 % 256]

/-- Value of a little-endian byte list (`memcpy` into an integer). -/
def leVal : List Nat → Nat
  | [] => 0
  | b :: t => b + 256 * leVal t

/-! ## Header field codec (`ros::Header::write` / `ros::Header::parse`)

A record header is the concatenation of fields; each field is a `u32`
length prefix followed by `key=value`, the key ASCII without `=`, the value
raw bytes.  `M_string` is a `std::map`, so the writer emits fields in
lexicographic key order; we write each concrete field list already sorted. -/

def encodeField (k v : List Nat) : List Nat :=
  u32le (k.length + 1 + v.length) ++ k ++ 61 :: v

def encodeHeaderFields (fs : List (List Nat × List Nat)) : List Nat :=
  fs.flatMap fun kv => encodeField kv.1 kv.2

/-- Split a field body at the first `=` (byte 61) into key and value. -/
def splitAtEq : List Nat → Option (List Nat × List Nat)
  | [] => none
  | b :: rest =>
    if b = 61 then some ([], rest)
    else (splitAtEq rest).map fun p => (b :: p.1, p.2)

/-- Parse the fields of a header buffer: read a `u32` length, take that
many bytes, split them at the first `=`, repeat until the buffer is
exhausted (a truncated field is a parse error).  The fuel is an upper
bound on the number of fields; callers pass the buffer length (each field
consumes at least four bytes). -/
def parseFieldsAux : Nat → List Nat → Option (List (List Nat × List Nat))
  | 0, b => if b = [] then some [] else none
  | fuel + 1, b =>
    if b = [] then some []
    else if 4 ≤ b.length ∧ leVal (b.take 4) ≤ (b.drop 4).length then
      match splitAtEq ((b.drop 4).take (leVal (b.take 4))) with
      | none => none
      | some kv =>
        (parseFieldsAux fuel ((b.drop 4).drop (leVal (b.take 4)))).map
          fun t => kv :: t
    else none

def parseFields (b : List Nat) : Option (List (List Nat × List Nat)) :=
  parseFieldsAux b.length b

/-- `M_string::find` on the parsed header (keys written by this code are
unique, so first match is the map lookup). -/
def lookupField : List (List Nat × List Nat) → List Nat → Option (List Nat)
  | [], _ => none
  | (k, v) :: t, key => if k = key then some v else lookupField t key

/-! ## Typed field readers (`Bag::checkField` / `Bag::readField`) -/

/-- `Bag::readField` for a string value: `checkField` with the given length
bounds, then copy the bytes. -/
def readStringFieldSized (fs : List (List Nat × List Nat)) (key : List Nat)
    (minLen maxLen : Nat) : Option (List Nat) :=
  match lookupField fs key with
  | none => none
  | some v => if minLen ≤ v.length ∧ v.length ≤ maxLen then some v else none

/-- The `string` overload of `Bag::readField` uses bounds `1 .. UINT_MAX`. -/
def readStringField (fs : List (List Nat × List Nat)) (key : List Nat) :
    Option (List Nat) :=
  readStringFieldSized fs key 1 (2 ^ 32 - 1)

/-- Numeric `Bag::readField`: the field must be exactly `sizeof (T)` bytes;
`memcpy` them little-endian. -/
def readNumFieldSized (fs : List (List Nat × List Nat)) (key : List Nat)
    (size : Nat) : Option Nat :=
  match lookupField fs key with
  | none => none
  | some v => if v.length = size then some (leVal v) else none

def opKey : List Nat := strBytes "op"
def topicKey : List Nat := strBytes "topic"
def verKey : List Nat := strBytes "ver"
def countKey : List Nat := strBytes "count"
def chunkPosKey : List Nat := strBytes "chunk_pos"
def startTimeKey : List Nat := strBytes "start_time"
def endTimeKey : List Nat := strBytes "end_time"
def compressionKey : List Nat := strBytes "compression"
def sizeKey : List Nat := strBytes "size"
def indexPosKey : List Nat := strBytes "index_pos"
def topicCountKey : List Nat := strBytes "topic_count"
def chunkCountKey : List Nat := strBytes "chunk_count"
def md5Key : List Nat := strBytes "md5"
def typeKey : List Nat := strBytes "type"
def defKey : List Nat := strBytes "def"
def timeKey : List Nat := strBytes "time"

/-- Read the one-byte `op` field. -/
def readOpField (fs : List (List Nat × List Nat)) : Option Nat :=
  readNumFieldSized fs opKey 1

/-! ## Time packing (`Bag::toHeaderString (Time const*)` and the `Time`
overload of `Bag::readField`) -/

structure BagTime where
  sec : Nat
  nsec : Nat
deriving DecidableEq, Repr

/-- `(((uint64_t) nsec) << 32) + sec`, a `uint64_t`. -/
def packTime (t : BagTime) : Nat :=
  ((t.nsec <<< 32) + t.sec) % 2 ^ 64

/-- The bytes `toHeaderString` emits for a `Time` field. -/
def timeFieldBytes (t : BagTime) : List Nat :=
  u64le (packTime t)

/-- The `Time` overload of `Bag::readField`: an 8-byte field, unpacked with
`sec = (uint32_t) (packed & ((1LL << 33) - 1))` and
`nsec = (uint32_t) (packed >> 32)`. -/
def unpackTime (packed : Nat) : BagTime :=
  { sec := (packed &&& ((1 <<< 33) - 1)) % 2 ^ 32
    nsec := (packed >>> 32) % 2 ^ 32 }

def readTimeField (fs : List (List Nat × List Nat)) (key : List Nat) :
    Option BagTime :=
  match readNumFieldSized fs key 8 with
  | none => none
  | some packed => some (unpackTime packed)

/-! ## Record framing

`Bag::writeHeader` emits `u32 header_len | header | u32 data_len`; the data
blob follows separately.  `Bag::readHeader` / `Bag::readHeaderFromBuffer`
read the same framing at a byte position and report the position after the
data-length prefix (`bytes_read = 4 + header_len + 4`). -/

def encodeRecord (hdr data : List Nat) : List Nat :=
  u32le hdr.length ++ hdr ++ u32le data.length ++ data

/-- Read a `u32` at byte `pos` of `buf` (reading past the end fails). -/
def readU32At (buf : List Nat) (pos : Nat) : Option Nat :=
  if pos + 4 ≤ buf.length then some (leVal ((buf.drop pos).take 4)) else none

/-- Parse a record header at byte `pos` of `buf`: returns the header fields,
the `data_size`, and the position just after the data-length prefix. -/
def readHeaderAt (buf : List Nat) (pos : Nat) :
    Option (List (List Nat × List Nat) × Nat × Nat) :=
  match readU32At buf pos with
  | none => none
  | some hlen =>
    if pos + 4 + hlen ≤ buf.length then
      match parseFields ((buf.drop (pos + 4)).take hlen) with
      | none => none
      | some fs =>
        match readU32At buf (pos + 4 + hlen) with
        | none => none
        | some ds => some (fs, ds, pos + 8 + hlen)
    else none

/-! ## Data model -/

structure TopicInfo where
  topic : List Nat
  msg_def : List Nat
  datatype : List Nat
  md5sum : List Nat
deriving DecidableEq, Repr

structure IndexEntry where
  time : BagTime
  chunk_pos : Nat
  offset : Nat
deriving DecidableEq, Repr

structure ChunkInfo where
  pos : Nat
  start_time : BagTime
  end_time : BagTime
  topic_counts : List (List Nat × Nat)
deriving DecidableEq, Repr

/-- `ros::Time` comparison is lexicographic on `(sec, nsec)`. -/
def timeLE (a b : BagTime) : Prop :=
  a.sec < b.sec ∨ (a.sec = b.sec ∧ a.nsec ≤ b.nsec)

instance : DecidablePred fun p : BagTime × BagTime => timeLE p.1 p.2 :=
  fun _ => by unfold timeLE; infer_instance

instance timeLE.dec (a b : BagTime) : Decidable (timeLE a b) := by
  unfold timeLE; infer_instance

def timeLEb (a b : BagTime) : Bool :=
  decide (timeLE a b)

/-- `time > curr_chunk_info_.end_time` (strict lexicographic `>`). -/
def timeLTb (a b : BagTime) : Bool :=
  !(timeLEb b a)

/-! ## Record builders (write side)

Each builder produces the exact byte sequence the corresponding
`Bag::write...Record` routine emits.  Fields are listed in `std::map`
iteration order, i.e. sorted by key. -/

/-- Opcodes. -/
def OP_MSG_DEF : Nat := 1
def OP_MSG_DATA : Nat := 2
def OP_FILE_HEADER : Nat := 3
def OP_INDEX_DATA : Nat := 4
def OP_CHUNK : Nat := 5
def OP_CHUNK_INFO : Nat := 6

def FILE_HEADER_LENGTH : Nat := 4096

def INDEX_VERSION : Nat := 1

def CHUNK_INFO_VERSION : Nat := 1

/-- Modelled from the spec: the version line `#ROSBAG V<major>.<minor>\n`
(the `VERSION` constant lives in `bag.h`, which is not part of the sources;
the current version is 1.3). -/
def versionLineBytes : List Nat := strBytes "#ROSBAG V1.3\n"

/-- The header fields of a FILE_HEADER record, in map iteration order. -/
def fileHeaderFields (indexPos topicCount chunkCount : Nat) :
    List (List Nat × List Nat) :=
  [(chunkCountKey, u32le chunkCount),
   (indexPosKey, u64le indexPos),
   (opKey, [OP_FILE_HEADER]),
   (topicCountKey, u32le topicCount)]

/-- `Bag::writeFileHeaderRecord`: header with `op`, `index_pos`,
`topic_count`, `chunk_count`; the data section is `data_len` space bytes
where `data_len = FILE_HEADER_LENGTH - header_len` when the header is
shorter than `FILE_HEADER_LENGTH` (and 0 otherwise). -/
def writeFileHeaderRecord (indexPos topicCount chunkCount : Nat) : List Nat :=
  let header := encodeHeaderFields (fileHeaderFields indexPos topicCount chunkCount)
  let dataLen := if header.length < FILE_HEADER_LENGTH then
    FILE_HEADER_LENGTH - header.length else 0
  u32le header.length ++ header ++ u32le dataLen ++ List.replicate dataLen 32

/-- Header fields of a MSG_DEF record (`Bag::writeMessageDefinitionRecord`). -/
def msgDefFields (info : TopicInfo) : List (List Nat × List Nat) :=
  [(defKey, info.msg_def),
   (md5Key, info.md5sum),
   (opKey, [OP_MSG_DEF]),
   (topicKey, info.topic),
   (typeKey, info.datatype)]

/-- A MSG_DEF record: header only, `data_len = 0`. -/
def msgDefRecord (info : TopicInfo) : List Nat :=
  encodeRecord (encodeHeaderFields (msgDefFields info)) []

/-- Header fields of a MSG_DATA record without latching/callerid
(`Bag::writeMessageDataRecord` with no connection header). -/
def msgDataFields (topic : List Nat) (time : BagTime) :
    List (List Nat × List Nat) :=
  [(opKey, [OP_MSG_DATA]),
   (timeKey, timeFieldBytes time),
   (topicKey, topic)]

/-- A MSG_DATA record: header plus the serialized message bytes. -/
def msgDataRecord (topic : List Nat) (time : BagTime) (payload : List Nat) :
    List Nat :=
  encodeRecord (encodeHeaderFields (msgDataFields topic time)) payload

/-- `Bag::writeChunkHeader`: header with `op`, `compression`, `size`
(uncompressed size); `data_len` is the compressed size, and the compressed
blob follows the record header separately. -/
def writeChunkHeader (compression : List Nat)
    (compressedSize uncompressedSize : Nat) : List Nat :=
  let header := encodeHeaderFields
    [(compressionKey, compression),
     (opKey, [OP_CHUNK]),
     (sizeKey, u32le uncompressedSize)]
  u32le header.length ++ header ++ u32le compressedSize

/-- Modelled from the spec: `sizeof (IndexEntry)` for the struct
`{Time time; uint64_t chunk_pos; uint32_t offset}` declared in `bag.h`
(not in the sources).  With 8-byte alignment of `uint64_t` the size is 24
(20 on 32-bit ABIs); the theorems about it assume only a lower bound. -/
def sizeofIndexEntry : Nat := 24

/-- The bytes `Bag::writeTopicIndexRecords` emits for one entry:
`u32 sec, u32 nsec, u32 offset`. -/
def indexEntryBytes (e : IndexEntry) : List Nat :=
  u32le e.time.sec ++ u32le e.time.nsec ++ u32le e.offset

/-- One INDEX_DATA record as written by `Bag::writeTopicIndexRecords`
(parametrised by `sizeofEntry` because the declared data length is
`count * sizeof (IndexEntry)`). -/
def indexDataRecord (sizeofEntry : Nat) (topic : List Nat)
    (entries : List IndexEntry) : List Nat :=
  let header := encodeHeaderFields
    [(countKey, u32le entries.length),
     (opKey, [OP_INDEX_DATA]),
     (topicKey, topic),
     (verKey, u32le INDEX_VERSION)]
  u32le header.length ++ header ++ u32le (entries.length * sizeofEntry) ++
    entries.flatMap indexEntryBytes

/-- `Bag::writeTopicIndexRecords`: one INDEX_DATA record per topic of the
current chunk, in map iteration order. -/
def writeTopicIndexRecords (idx : List (List Nat × List IndexEntry)) :
    List Nat :=
  idx.flatMap fun p => indexDataRecord sizeofIndexEntry p.1 p.2

/-- One CHUNK_INFO record (`Bag::writeChunkInfoRecords`): header fields in
key order, data = repeated `(u32 len, topic bytes, u32 count)`. -/
def chunkInfoRecord (ci : ChunkInfo) : List Nat :=
  let header := encodeHeaderFields
    [(chunkPosKey, u64le ci.pos),
     (countKey, u32le ci.topic_counts.length),
     (endTimeKey, timeFieldBytes ci.end_time),
     (opKey, [OP_CHUNK_INFO]),
     (startTimeKey, timeFieldBytes ci.start_time),
     (verKey, u32le CHUNK_INFO_VERSION)]
  let data := ci.topic_counts.flatMap fun p =>
    u32le p.1.length ++ p.1 ++ u32le p.2
  u32le header.length ++ header ++
    u32le ((ci.topic_counts.map fun p => 4 + p.1.length + 4).sum) ++ data

def writeChunkInfoRecords (cis : List ChunkInfo) : List Nat :=
  cis.flatMap chunkInfoRecord

/-! ## Association-list views of the `std::map` members

`topic_infos_`, `topic_indexes_` and `curr_chunk_topic_indexes_` are
`std::map`s; we model them as association lists with unique keys
(insertion happens only when `find` fails).  Iteration order of the model
is insertion order rather than key order; no claim below depends on the
iteration order of these maps. -/

def lookupAssoc {β : Type} : List (List Nat × β) → List Nat → Option β
  | [], _ => none
  | (k, v) :: t, key => if k = key then some v else lookupAssoc t key

/-- `m[k].push_back`-style append of a batch of values (creates the key with
those values if absent, like `operator[]` followed by `push_back`). -/
def assocApp {β : Type} : List (List Nat × List β) → List Nat → List β →
    List (List Nat × List β)
  | [], k, vs => [(k, vs)]
  | (k', vs') :: t, k, vs =>
    if k' = k then (k', vs' ++ vs) :: t else (k', vs') :: assocApp t k vs

/-! ## Reader: skipping MSG_DEF records to a MSG_DATA record

The `do { readHeader...; } while (op == OP_MSG_DEF);` loops of
`Bag::readMessageDataRecord103` (both branches) advance only past each
record's header and length prefixes — which is correct because MSG_DEF
records are written with `data_len = 0`. -/

def readMessageRecordAux :
    Nat → List Nat → Nat → Option (List (List Nat × List Nat) × Nat × Nat)
  | 0, _, _ => none
  | fuel + 1, buf, pos =>
    match readHeaderAt buf pos with
    | none => none
    | some (fs, ds, pos') =>
      match readOpField fs with
      | none => none
      | some op =>
        if op = OP_MSG_DEF then readMessageRecordAux fuel buf pos'
        else some (fs, ds, pos')

/-- Parse records at `pos`, skipping MSG_DEF records; require the next
record to be MSG_DATA (the `assert (op == OP_MSG_DATA)`) and return its
header fields and its `data_size` bytes of data. -/
def readMessageRecordInBuffer (buf : List Nat) (pos : Nat) :
    Option (List (List Nat × List Nat) × List Nat) :=
  match readMessageRecordAux (buf.length + 1) buf pos with
  | none => none
  | some (fs, ds, pos') =>
    if readOpField fs = some OP_MSG_DATA then
      if pos' + ds ≤ buf.length then some (fs, (buf.drop pos').take ds)
      else none
    else none

/-! ## Reader: trailer records -/

/-- `Bag::readMessageDefinitionRecord`.  Reads the header at `pos`; on a
well-formed MSG_DEF stores a new `TopicInfo` only when the topic is not yet
present.  Returns the position after the length prefixes (the empty data
section of a MSG_DEF is not skipped — it has no bytes). -/
def readMessageDefinitionRecord (file : List Nat) (pos : Nat)
    (infos : List (List Nat × TopicInfo)) :
    Option (Nat × List (List Nat × TopicInfo)) :=
  match readHeaderAt file pos with
  | none => none
  | some (fs, _ds, pos') =>
    if readOpField fs = some OP_MSG_DEF then
      match readStringField fs topicKey, readStringFieldSized fs md5Key 32 32,
          readStringField fs typeKey,
          readStringFieldSized fs defKey 0 (2 ^ 32 - 1) with
      | some topic, some md5, some dt, some df =>
        match lookupAssoc infos topic with
        | some _ => some (pos', infos)
        | none =>
          some (pos', infos ++ [(topic, ⟨topic, df, dt, md5⟩)])
      | _, _, _, _ => none
    else none

structure ChunkHeader where
  compression : List Nat
  compressed_size : Nat
  uncompressed_size : Nat
deriving DecidableEq, Repr

def COMPRESSION_NONE : List Nat := strBytes "none"
def COMPRESSION_BZ2 : List Nat := strBytes "bz2"
def COMPRESSION_ZLIB : List Nat := strBytes "zlib"

/-- `Bag::readChunkHeader` at a byte position: `data_size` is the
compressed size; `compression` and `size` come from the header fields. -/
def readChunkHeaderAt (file : List Nat) (pos : Nat) :
    Option (ChunkHeader × Nat) :=
  match readHeaderAt file pos with
  | none => none
  | some (fs, ds, pos') =>
    if readOpField fs = some OP_CHUNK then
      match readStringField fs compressionKey,
          readNumFieldSized fs sizeKey 4 with
      | some comp, some us => some (⟨comp, ds, us⟩, pos')
      | _, _ => none
    else none

/-- `Bag::readTopicIndexDataVersion1` entry loop: `count` entries of
12 bytes `(u32 sec, u32 nsec, u32 offset)`; `chunk_pos` is the position of
the surrounding chunk. -/
def readIndexEntriesV1 :
    Nat → List Nat → Nat → Nat → List IndexEntry →
    Option (Nat × List IndexEntry)
  | 0, _, pos, _, acc => some (pos, acc)
  | n + 1, file, pos, chunkPos, acc =>
    match file.drop pos with
    | s0 :: s1 :: s2 :: s3 :: n0 :: n1 :: n2 :: n3 :: o0 :: o1 :: o2 :: o3 :: _ =>
      readIndexEntriesV1 n file (pos + 12) chunkPos
        (acc ++ [⟨⟨leVal [s0, s1, s2, s3], leVal [n0, n1, n2, n3]⟩,
                 chunkPos, leVal [o0, o1, o2, o3]⟩])
    | _ => none

/-- `Bag::readTopicIndexDataVersion0` entry loop: `count` entries of
16 bytes `(u32 sec, u32 nsec, u64 file position)`; the file position is
stored in `chunk_pos` and `offset` is 0. -/
def readIndexEntriesV0 :
    Nat → List Nat → Nat → List IndexEntry → Option (Nat × List IndexEntry)
  | 0, _, pos, acc => some (pos, acc)
  | n + 1, file, pos, acc =>
    match file.drop pos with
    | s0 :: s1 :: s2 :: s3 :: n0 :: n1 :: n2 :: n3 ::
        p0 :: p1 :: p2 :: p3 :: p4 :: p5 :: p6 :: p7 :: _ =>
      readIndexEntriesV0 n file (pos + 16)
        (acc ++ [⟨⟨leVal [s0, s1, s2, s3], leVal [n0, n1, n2, n3]⟩,
                 leVal [p0, p1, p2, p3, p4, p5, p6, p7], 0⟩])
    | _ => none

/-- `Bag::readTopicIndexRecord`.  The version-1 size check
`count * sizeof (IndexEntry) != data_size` is `uint32_t` arithmetic.
The version-0 check is commented out in the source. -/
def readTopicIndexRecord (file : List Nat) (pos : Nat) (currChunkPos : Nat)
    (indexes : List (List Nat × List IndexEntry)) :
    Option (Nat × List (List Nat × List IndexEntry)) :=
  match readHeaderAt file pos with
  | none => none
  | some (fs, dataSize, pos') =>
    if readOpField fs = some OP_INDEX_DATA then
      match readNumFieldSized fs verKey 4, readStringField fs topicKey,
          readNumFieldSized fs countKey 4 with
      | some ver, some topic, some count =>
        if ver = 0 then
          match readIndexEntriesV0 count file pos' [] with
          | none => none
          | some (pos2, es) => some (pos2, assocApp indexes topic es)
        else if ver = 1 then
          if count * sizeofIndexEntry % 2 ^ 32 = dataSize then
            match readIndexEntriesV1 count file pos' currChunkPos [] with
            | none => none
            | some (pos2, es) => some (pos2, assocApp indexes topic es)
          else none
        else none
      | _, _, _ => none
    else none

/-- The per-entry loop of `Bag::readChunkInfoRecord`:
`(u32 name_len, name bytes, u32 count)` repeated. -/
def readTopicCountEntries :
    Nat → List Nat → Nat → List (List Nat × Nat) →
    Option (Nat × List (List Nat × Nat))
  | 0, _, pos, acc => some (pos, acc)
  | n + 1, file, pos, acc =>
    match file.drop pos with
    | l0 :: l1 :: l2 :: l3 :: rest =>
      let len := leVal [l0, l1, l2, l3]
      if len ≤ rest.length then
        match rest.drop len with
        | c0 :: c1 :: c2 :: c3 :: _ =>
          readTopicCountEntries n file (pos + 4 + len + 4)
            (acc ++ [(rest.take len, leVal [c0, c1, c2, c3])])
        | _ => none
      else none
    | _ => none

/-- `Bag::readChunkInfoRecord` (the `assert` on the version is modelled as
failure). -/
def readChunkInfoRecord (file : List Nat) (pos : Nat)
    (cis : List ChunkInfo) : Option (Nat × List ChunkInfo) :=
  match readHeaderAt file pos with
  | none => none
  | some (fs, _ds, pos') =>
    if readOpField fs = some OP_CHUNK_INFO then
      match readNumFieldSized fs verKey 4 with
      | none => none
      | some ver =>
        if ver = CHUNK_INFO_VERSION then
          match readNumFieldSized fs chunkPosKey 8,
              readTimeField fs startTimeKey, readTimeField fs endTimeKey,
              readNumFieldSized fs countKey 4 with
          | some cpos, some st, some et, some cnt =>
            match readTopicCountEntries cnt file pos' [] with
            | none => none
            | some (pos2, tcs) => some (pos2, cis ++ [⟨cpos, st, et, tcs⟩])
          | _, _, _, _ => none
        else none
    else none

/-- `Bag::readFileHeaderRecord` (version ≥ 103 path).  The `index_pos`
read is checked; the `topic_count` / `chunk_count` reads have their return
values ignored by the source, so a missing field keeps the previous member
value (`tc0`, `cc0`).  Returns `(index_pos, topic_count, chunk_count,
position after skipping the padding)`. -/
def readFileHeaderRecord (file : List Nat) (pos : Nat) (tc0 cc0 : Nat) :
    Option (Nat × Nat × Nat × Nat) :=
  match readHeaderAt file pos with
  | none => none
  | some (fs, dataSize, pos') =>
    if readOpField fs = some OP_FILE_HEADER then
      match readNumFieldSized fs indexPosKey 8 with
      | none => none
      | some ip =>
        some (ip, (readNumFieldSized fs topicCountKey 4).getD tc0,
              (readNumFieldSized fs chunkCountKey 4).getD cc0,
              pos' + dataSize)
    else none

/-- `topic_count_` iterations of `readMessageDefinitionRecord`. -/
def readMsgDefLoop :
    Nat → List Nat → Nat → List (List Nat × TopicInfo) →
    Option (Nat × List (List Nat × TopicInfo))
  | 0, _, pos, infos => some (pos, infos)
  | n + 1, file, pos, infos =>
    match readMessageDefinitionRecord file pos infos with
    | none => none
    | some (pos', infos') => readMsgDefLoop n file pos' infos'

/-- `chunk_count_` iterations of `readChunkInfoRecord`. -/
def readChunkInfoLoop :
    Nat → List Nat → Nat → List ChunkInfo → Option (Nat × List ChunkInfo)
  | 0, _, pos, cis => some (pos, cis)
  | n + 1, file, pos, cis =>
    match readChunkInfoRecord file pos cis with
    | none => none
    | some (pos', cis') => readChunkInfoLoop n file pos' cis'

/-- `topic_counts.size()` iterations of `readTopicIndexRecord`. -/
def readTopicIndexLoop :
    Nat → List Nat → Nat → Nat → List (List Nat × List IndexEntry) →
    Option (Nat × List (List Nat × List IndexEntry))
  | 0, _, pos, _, idx => some (pos, idx)
  | n + 1, file, pos, chunkPos, idx =>
    match readTopicIndexRecord file pos chunkPos idx with
    | none => none
    | some (pos', idx') => readTopicIndexLoop n file pos' chunkPos idx'

/-- The per-chunk loop of `Bag::startReadingVersion103`: seek to the chunk,
read its header, skip `compressed_size` bytes, then read one INDEX_DATA
record per topic of the chunk. -/
def readChunkIndexes :
    List ChunkInfo → List Nat → List (List Nat × List IndexEntry) →
    Option (List (List Nat × List IndexEntry))
  | [], _, idx => some idx
  | ci :: rest, file, idx =>
    match readChunkHeaderAt file ci.pos with
    | none => none
    | some (ch, pos') =>
      match readTopicIndexLoop ci.topic_counts.length file
          (pos' + ch.compressed_size) ci.pos idx with
      | none => none
      | some (_, idx') => readChunkIndexes rest file idx'

/-- `Bag::startReadingVersion103`, returning whether the function succeeds
(`true` = trailer loaded).  `fileHeaderPos` is the offset just after the
version line. -/
def startReadingVersion103 (file : List Nat) (fileHeaderPos : Nat) : Bool :=
  match readFileHeaderRecord file fileHeaderPos 0 0 with
  | none => false
  | some (indexPos, tc, cc, _) =>
    match readMsgDefLoop tc file indexPos [] with
    | none => false
    | some (pos1, _) =>
      match readChunkInfoLoop cc file pos1 [] with
      | none => false
      | some (_, cis) => (readChunkIndexes cis file []).isSome

/-! ## Reader: random access (`Bag::decompressChunk`,
`Bag::readMessageDataRecord103`)

The compression primitives are external; the model is parametric in a
decompression function `decFn compression input outputSize`. -/

structure ReadState where
  file : List Nat
  decompressed_chunk : Nat
  decompress_buffer : List Nat
deriving DecidableEq, Repr

def decompressChunk (decFn : List Nat → List Nat → Nat → List Nat)
    (st : ReadState) (chunkPos : Nat) : Option ReadState :=
  if st.decompressed_chunk = chunkPos then some st
  else
    match readChunkHeaderAt st.file chunkPos with
    | none => none
    | some (ch, pos') =>
      if ch.compression = COMPRESSION_NONE then some st
      else if ch.compression = COMPRESSION_BZ2 ∨
          ch.compression = COMPRESSION_ZLIB then
        if pos' + ch.compressed_size ≤ st.file.length then
          some { st with
            decompress_buffer :=
              decFn ch.compression ((st.file.drop pos').take ch.compressed_size)
                ch.uncompressed_size,
            decompressed_chunk := chunkPos }
        else none
      else none

/-- `Bag::readMessageDataRecord103`.  On a cache miss the chunk header is
read, and the chunk is decompressed only when its compression field is
`bz2`; afterwards, if the cache matches the chunk the message is parsed out
of the decompressed buffer, otherwise the record is parsed straight from
the file after the chunk header (the uncompressed-chunk path).  A BZ2
chunk whose decompression fails is modelled as failure. -/
def readMessageDataRecord103 (decFn : List Nat → List Nat → Nat → List Nat)
    (st : ReadState) (topic : List Nat) (chunkPos offset : Nat) :
    Option (ReadState × List Nat) :=
  let step : Option (ReadState × Option Nat) :=
    if st.decompressed_chunk ≠ chunkPos then
      match readChunkHeaderAt st.file chunkPos with
      | none => none
      | some (ch, pos') =>
        if ch.compression = COMPRESSION_BZ2 then
          match decompressChunk decFn st chunkPos with
          | none => none
          | some st' => some (st', some pos')
        else some (st, some pos')
    else some (st, none)
  match step with
  | none => none
  | some (st', posAfterHeader) =>
    if st'.decompressed_chunk = chunkPos then
      match readMessageRecordInBuffer st'.decompress_buffer offset with
      | none => none
      | some (fs, data) =>
        match readStringField fs topicKey with
        | none => none
        | some msgTopic => if msgTopic = topic then some (st', data) else none
    else
      match posAfterHeader with
      | none => none
      | some pos' =>
        match readMessageRecordInBuffer st'.file (pos' + offset) with
        | none => none
        | some (fs, data) =>
          match readStringField fs topicKey with
          | none => none
          | some msgTopic => if msgTopic = topic then some (st', data) else none

/-! ## Writer (`Bag::write` and the chunk machinery)

The writer is modelled as a pure state machine over the byte file.  Writes
inside an open chunk accumulate in `curr_chunk_data` (the uncompressed
chunk contents — `getChunkOffset()` equals its length in both compression
modes); closing the chunk materialises the chunk record in the file,
compressing the data with the external `compressFn` unless the compression
is `none`.  `chunk_datas` records each closed chunk's position and
uncompressed contents (what decompressing the chunk recovers). -/

structure WriteOp where
  topic : List Nat
  time : BagTime
  payload : List Nat
  msg_def : List Nat
  datatype : List Nat
  md5sum : List Nat
deriving DecidableEq, Repr

structure WriterState where
  file : List Nat
  topic_infos : List (List Nat × TopicInfo)
  topic_indexes : List (List Nat × List IndexEntry)
  chunk_open : Bool
  curr_chunk_info : ChunkInfo
  curr_chunk_topic_indexes : List (List Nat × List IndexEntry)
  curr_chunk_data : List Nat
  chunk_infos : List ChunkInfo
  chunk_datas : List (Nat × List Nat)
  index_data_pos : Nat
deriving Repr

/-- `curr_chunk_info_.topic_counts[topic]++`. -/
def assocBump : List (List Nat × Nat) → List Nat → List (List Nat × Nat)
  | [], k => [(k, 1)]
  | (k', n) :: t, k =>
    if k' = k then (k', n + 1) :: t else (k', n) :: assocBump t k

/-- `Bag::startWritingChunk`: remember the position, emit a CHUNK header
with placeholder sizes, start the (possibly compressed) data section. -/
def startWritingChunk (compression : List Nat) (s : WriterState)
    (time : BagTime) : WriterState :=
  { s with
    curr_chunk_info := ⟨s.file.length, time, time, []⟩
    file := s.file ++ writeChunkHeader compression 0 0
    curr_chunk_data := []
    chunk_open := true }

/-- `Bag::stopWritingChunk`: append the chunk to the index, merge the
per-chunk topic indexes into the global ones, flush the compression stage,
rewrite the CHUNK header in place with the real sizes (same length as the
placeholder), and append the INDEX_DATA records. -/
def stopWritingChunk (compression : List Nat)
    (compressFn : List Nat → List Nat) (s : WriterState) : WriterState :=
  let chunkInfos := s.chunk_infos ++ [s.curr_chunk_info]
  let topicIndexes := s.curr_chunk_topic_indexes.foldl
    (fun m p => assocApp m p.1 p.2) s.topic_indexes
  let compressed := if compression = COMPRESSION_NONE then s.curr_chunk_data
    else compressFn s.curr_chunk_data
  let file := s.file.take s.curr_chunk_info.pos ++
    writeChunkHeader compression compressed.length s.curr_chunk_data.length ++
    compressed
  let file := file ++ writeTopicIndexRecords s.curr_chunk_topic_indexes
  { s with
    chunk_infos := chunkInfos
    topic_indexes := topicIndexes
    file := file
    chunk_datas := s.chunk_datas ++ [(s.curr_chunk_info.pos, s.curr_chunk_data)]
    curr_chunk_topic_indexes := []
    chunk_open := false }

/-- `Bag::write` (one message; the disk guard is external and writing is
enabled).  The topic info is inserted on first sight, the index entry is
recorded at the current chunk offset *before* the records are written, a
MSG_DEF record is emitted inside the chunk for a new topic, then the
MSG_DATA record, and the chunk is closed when its size exceeds the
threshold. -/
def doWrite (compression : List Nat) (compressFn : List Nat → List Nat)
    (chunkThreshold : Nat) (s : WriterState) (op : WriteOp) : WriterState :=
  let found := lookupAssoc s.topic_infos op.topic
  let needsDef := found.isNone
  let info : TopicInfo := match found with
    | some i => i
    | none => ⟨op.topic, op.msg_def, op.datatype, op.md5sum⟩
  let s := if needsDef then
      { s with topic_infos := s.topic_infos ++ [(op.topic, info)]
               topic_indexes := s.topic_indexes ++ [(op.topic, [])] }
    else s
  let s := if s.chunk_open then s else startWritingChunk compression s op.time
  let entry : IndexEntry :=
    ⟨op.time, s.curr_chunk_info.pos, s.curr_chunk_data.length⟩
  let s := { s with
    curr_chunk_topic_indexes :=
      assocApp s.curr_chunk_topic_indexes op.topic [entry]
    curr_chunk_info := { s.curr_chunk_info with
      topic_counts := assocBump s.curr_chunk_info.topic_counts op.topic } }
  let s := if needsDef then
      { s with curr_chunk_data := s.curr_chunk_data ++ msgDefRecord info }
    else s
  let s := { s with
    curr_chunk_data := s.curr_chunk_data ++
      msgDataRecord op.topic op.time op.payload
    curr_chunk_info := { s.curr_chunk_info with
      end_time := if timeLTb s.curr_chunk_info.end_time op.time then op.time
        else s.curr_chunk_info.end_time } }
  if chunkThreshold < s.curr_chunk_data.length then
    stopWritingChunk compression compressFn s
  else s

/-- `Bag::startWritingVersion103`: version line plus a FILE_HEADER record
with `index_pos = 0` and zero counts. -/
def startWritingVersion103 : WriterState :=
  { file := versionLineBytes ++ writeFileHeaderRecord 0 0 0
    topic_infos := []
    topic_indexes := []
    chunk_open := false
    curr_chunk_info := ⟨0, ⟨0, 0⟩, ⟨0, 0⟩, []⟩
    curr_chunk_topic_indexes := []
    curr_chunk_data := []
    chunk_infos := []
    chunk_datas := []
    index_data_pos := 0 }

/-- `Bag::stopWritingVersion103`: close an open chunk, record `index_pos`,
append the MSG_DEF and CHUNK_INFO trailer records, rewrite the FILE_HEADER
in place (it has the same length as the placeholder), and clear
`topic_infos_`. -/
def stopWritingVersion103 (compression : List Nat)
    (compressFn : List Nat → List Nat) (s : WriterState) : WriterState :=
  let s := if s.chunk_open then stopWritingChunk compression compressFn s
    else s
  let indexPos := s.file.length
  let file := s.file ++ (s.topic_infos.flatMap fun p => msgDefRecord p.2)
  let file := file ++ writeChunkInfoRecords s.chunk_infos
  let fh := writeFileHeaderRecord indexPos s.topic_infos.length
    s.chunk_infos.length
  let file := file.take versionLineBytes.length ++ fh ++
    file.drop (versionLineBytes.length + fh.length)
  { s with file := file, index_data_pos := indexPos, topic_infos := [] }

/-- A complete `open(Write)` … `write*` … `close()` run. -/
def runWriter (compression : List Nat) (compressFn : List Nat → List Nat)
    (chunkThreshold : Nat) (ops : List WriteOp) : WriterState :=
  stopWritingVersion103 compression compressFn
    (ops.foldl (doWrite compression compressFn chunkThreshold)
      startWritingVersion103)

/-! ## Query side (`Bag::getMessagesByTopic`, `Bag::getMessages`)

A `MessageInfo` handle is modelled as the topic, the position of the entry
inside its topic index (the iterator position — a ghost component that
identifies which entry was emitted), and the entry itself. -/

structure MergeItem where
  topic : List Nat
  pos : Nat
  entry : IndexEntry
deriving DecidableEq, Repr

structure MergeHelper where
  topic : List Nat
  pos : Nat
  rem : List IndexEntry
deriving DecidableEq, Repr

def headTime (h : MergeHelper) : BagTime :=
  match h.rem with
  | [] => ⟨0, 0⟩
  | e :: _ => e.time

/-- Remove from the queue one helper whose current entry has minimal time
(`std::priority_queue` with `MergeCompare`; among equal times the source
order is unspecified — the model takes the leftmost). -/
def extractMin : MergeHelper → List MergeHelper → MergeHelper × List MergeHelper
  | h, [] => (h, [])
  | h, h' :: t =>
    if timeLEb (headTime h) (headTime h') then
      ((extractMin h t).1, h' :: (extractMin h t).2)
    else
      ((extractMin h' t).1, h :: (extractMin h' t).2)

/-- The pop/emit/advance/reinsert loop of `Bag::getMessagesByTopic`.
The fuel is an upper bound on the number of iterations (each one either
emits an entry or discards an empty helper). -/
def mergeLoop : Nat → List MergeHelper → List MergeItem
  | 0, _ => []
  | _ + 1, [] => []
  | fuel + 1, h :: t =>
    match extractMin h t with
    | (m, rest) =>
      match m.rem with
      | [] => mergeLoop fuel rest
      | e :: tl =>
        ⟨m.topic, m.pos, e⟩ ::
          mergeLoop fuel
            (if tl.isEmpty then rest else ⟨m.topic, m.pos + 1, tl⟩ :: rest)

/-- The stream of handles a helper will emit: its remaining entries tagged
with the topic and with consecutive index positions. -/
def itemsFrom (topic : List Nat) : Nat → List IndexEntry → List MergeItem
  | _, [] => []
  | p, e :: tl => ⟨topic, p, e⟩ :: itemsFrom topic (p + 1) tl

def totalRem (hs : List MergeHelper) : Nat :=
  (hs.map fun h => h.rem.length).sum

/-- `std::lower_bound` with `IndexEntryCompare` on an index sorted by time:
index of the first entry whose time is not less than `t`. -/
def lowerBound (l : List IndexEntry) (t : BagTime) : Nat :=
  l.countP fun e => timeLTb e.time t

/-- `std::upper_bound`: index of the first entry whose time is greater
than `t`. -/
def upperBound (l : List IndexEntry) (t : BagTime) : Nat :=
  l.countP fun e => timeLEb e.time t

/-- The merge helper `Bag::getMessagesByTopic` builds for one requested
topic: present in both maps and with a nonempty
`[lower_bound, upper_bound)` slice of its index. -/
def mkMergeHelper (indexes : List (List Nat × List IndexEntry))
    (infos : List (List Nat × TopicInfo)) (startTime endTime : BagTime)
    (topic : List Nat) : Option MergeHelper :=
  match lookupAssoc indexes topic, lookupAssoc infos topic with
  | some entries, some _ =>
    if ((entries.drop (lowerBound entries startTime)).take
        (upperBound entries endTime - lowerBound entries startTime)).isEmpty
    then none
    else some ⟨topic, lowerBound entries startTime,
      (entries.drop (lowerBound entries startTime)).take
        (upperBound entries endTime - lowerBound entries startTime)⟩
  | _, _ => none

/-- `Bag::getMessagesByTopic`: for each requested topic present in both
maps, a merge helper over the `[lower_bound, upper_bound)` slice of its
index; then the priority-queue merge. -/
def getMessagesByTopic (indexes : List (List Nat × List IndexEntry))
    (infos : List (List Nat × TopicInfo)) (topics : List (List Nat))
    (startTime endTime : BagTime) : List MergeItem :=
  let helpers := topics.filterMap (mkMergeHelper indexes infos startTime endTime)
  mergeLoop (totalRem helpers + helpers.length) helpers

/-- `Bag::getMessages`: iterate all topics with a `TopicInfo`, look up the
topic index, and keep the entries with `start_time <= time <= end_time`. -/
def getMessages (infos : List (List Nat × TopicInfo))
    (indexes : List (List Nat × List IndexEntry))
    (startTime endTime : BagTime) : List MergeItem :=
  infos.flatMap fun p =>
    match lookupAssoc indexes p.1 with
    | none => []
    | some idx =>
      (idx.enum.filter fun ie =>
        timeLEb startTime ie.2.time && timeLEb ie.2.time endTime).map
        fun ie => ⟨p.1, ie.1, ie.2⟩

/-! ## Disk guard (`Bag::checkDisk`)

`statvfs` is external; the model takes the computed free-space figure
(`f_bsize * f_bavail`) and the current `writing_enabled_` flag, and returns
the new flag together with the function's return value. -/

def checkDisk (writingEnabled : Bool) (freeSpace : Nat) : Bool × Bool :=
  if freeSpace < 1073741824 then
    (false, false)
  else if freeSpace < 5368709120 then
    (writingEnabled, true)
  else
    (true, true)

/-! ## A toy codec and a concrete one-message chunk

The compression primitives are external to the engine (it only sees the
framed `compress` / `decompress` interface), so the reader model is
exercised with a toy codec: `compress` prepends a zero byte and
`decompress` drops it. -/

def toyCompress : List Nat → List Nat := fun l => 0 :: l

def toyDecompress : List Nat → List Nat → Nat → List Nat :=
  fun _ src _ => src.drop 1

/-- The single MSG_DATA record of the example chunk. -/
def c2Message : List Nat := msgDataRecord (strBytes "/a") ⟨10, 0⟩ [222, 173]

/-- A file holding one chunk at byte position 16 with the given compression
string and blob (16 filler bytes stand for the data preceding the chunk). -/
def c2File (comp : List Nat) (blob : List Nat) : List Nat :=
  List.replicate 16 7 ++ writeChunkHeader comp blob.length c2Message.length ++
    blob

/-- A concrete one-message write: topic `/a` is new, so the writer emits a
MSG_DEF record followed by the MSG_DATA record inside the chunk. -/
def c4Op : WriteOp :=
  ⟨[97], ⟨10, 0⟩, [222, 173], [100], [116], List.replicate 32 48⟩

def c4Info : TopicInfo := ⟨[97], [100], [116], List.replicate 32 48⟩

/-- The chunk position of the single chunk of the `c4Op` run: the file
length after the version line and the FILE_HEADER record. -/
def c4Pos : Nat := (versionLineBytes ++ writeFileHeaderRecord 0 0 0).length

/-- The uncompressed data of that chunk. -/
def c4Data : List Nat :=
  msgDefRecord c4Info ++ msgDataRecord [97] ⟨10, 0⟩ [222, 173]

/-! ## Well-formedness predicates used by the theorems -/

/-- Header fields as this writer produces them: keys contain no `=`, and
every field fits in its `u32` length prefix. -/
def WFFields (fs : List (List Nat × List Nat)) : Prop :=
  ∀ p ∈ fs, (61 : Nat) ∉ p.1 ∧ p.1.length + 1 + p.2.length < 2 ^ 32

/-- Bounds under which a `write` call round-trips: a nonempty topic and
sizes that fit the `u32` length prefixes of the wire format. -/
def WFOp (op : WriteOp) : Prop :=
  op.topic ≠ [] ∧ op.topic.length < 2 ^ 20 ∧ op.payload.length < 2 ^ 32 ∧
  op.msg_def.length < 2 ^ 20 ∧ op.datatype.length < 2 ^ 20 ∧
  op.md5sum.length < 2 ^ 20 ∧ op.time.sec < 2 ^ 32 ∧ op.time.nsec < 2 ^ 32

/-- Size bounds for a stored `TopicInfo`. -/
def WFInfo (info : TopicInfo) : Prop :=
  info.topic.length < 2 ^ 20 ∧ info.msg_def.length < 2 ^ 20 ∧
  info.datatype.length < 2 ^ 20 ∧ info.md5sum.length < 2 ^ 20

/-- The index entry `e` of topic `topic` can be redeemed against the
uncompressed chunk data `d`: running the skip loop at `e.offset` yields a
MSG_DATA record carrying exactly this topic and `e.time` (with the size
bounds the reader's field decoding needs). -/
def GoodEntry (topic : List Nat) (d : List Nat) (e : IndexEntry) : Prop :=
  topic ≠ [] ∧ topic.length < 2 ^ 20 ∧
  e.time.sec < 2 ^ 32 ∧ e.time.nsec < 2 ^ 32 ∧
  ∃ payload, readMessageRecordInBuffer d e.offset =
    some (msgDataFields topic e.time, payload)

/-- Every entry in the global topic indexes points into a recorded chunk
whose uncompressed data redeems it. -/
def ClosedInv (s : WriterState) : Prop :=
  ∀ p ∈ s.topic_indexes, ∀ e ∈ p.2,
    ∃ c ∈ s.chunk_infos, c.pos = e.chunk_pos ∧
      ∃ d, (c.pos, d) ∈ s.chunk_datas ∧ GoodEntry p.1 d e

/-- Every entry in the per-chunk topic indexes points at the current chunk
and is redeemed by the chunk data accumulated so far. -/
def OpenInv (s : WriterState) : Prop :=
  ∀ p ∈ s.curr_chunk_topic_indexes, ∀ e ∈ p.2,
    e.chunk_pos = s.curr_chunk_info.pos ∧
      GoodEntry p.1 s.curr_chunk_data e

/-- The writer invariant: both index views are redeemable, and a closed
chunk leaves no pending per-chunk index. -/
def WriterInv (s : WriterState) : Prop :=
  ClosedInv s ∧ OpenInv s ∧
  (s.chunk_open = false → s.curr_chunk_topic_indexes = [])

/-! # Lemmas -/

theorem leVal_u32le (n : Nat) : leVal (u32le n) = n % 2 ^ 32 := by
  simp only [u32le, leVal]
  omega

theorem leVal_u64le (n : Nat) : leVal (u64le n) = n % 2 ^ 64 := by
  simp only [u64le, leVal]
  omega

theorem u32le_length (n : Nat) : (u32le n).length = 4 := rfl

theorem u64le_length (n : Nat) : (u64le n).length = 8 := rfl

theorem u32le_inj {a b : Nat} (ha : a < 2 ^ 32) (hb : b < 2 ^ 32)
    (h : u32le a = u32le b) : a = b := by
  have h2 := congrArg leVal h
  rw [leVal_u32le, leVal_u32le, Nat.mod_eq_of_lt ha, Nat.mod_eq_of_lt hb] at h2
  exact h2

theorem packTime_lt (t : BagTime) : packTime t < 2 ^ 64 :=
  Nat.mod_lt _ (by norm_num)

theorem unpackTime_packTime (t : BagTime) (hs : t.sec < 2 ^ 32)
    (hn : t.nsec < 2 ^ 32) : unpackTime (packTime t) = t := by
  obtain ⟨sec, nsec⟩ := t
  simp only at hs hn
  have hpack : packTime ⟨sec, nsec⟩ = nsec * 2 ^ 32 + sec := by
    unfold packTime
    rw [Nat.shiftLeft_eq]
    simp only
    apply Nat.mod_eq_of_lt
    omega
  unfold unpackTime
  rw [hpack, Nat.one_shiftLeft, Nat.and_pow_two_sub_one_eq_mod,
      Nat.shiftRight_eq_div_pow]
  simp only [BagTime.mk.injEq]
  constructor
  · omega
  · omega

theorem splitAtEq_append {k v : List Nat} (hk : (61 : Nat) ∉ k) :
    splitAtEq (k ++ 61 :: v) = some (k, v) := by
  induction k with
  | nil => simp [splitAtEq]
  | cons b t ih =>
    have hb : ¬(b = 61) := fun h => hk (by simp [h])
    simp only [List.cons_append, splitAtEq, if_neg hb, List.append_eq]
    rw [ih fun hmem => hk (List.mem_cons_of_mem b hmem)]
    rfl

theorem encodeField_length (k v : List Nat) :
    (encodeField k v).length = 4 + (k.length + 1 + v.length) := by
  simp [encodeField, u32le]
  omega

theorem length_le_encodeHeaderFields (fs : List (List Nat × List Nat)) :
    fs.length ≤ (encodeHeaderFields fs).length := by
  induction fs with
  | nil => simp [encodeHeaderFields]
  | cons kv t ih =>
    simp only [encodeHeaderFields, List.flatMap_cons, List.length_append,
      List.length_cons] at ih ⊢
    have h1 : 1 ≤ (encodeField kv.1 kv.2).length := by
      rw [encodeField_length]
      omega
    omega

theorem parseFieldsAux_encode (fs : List (List Nat × List Nat)) :
    ∀ fuel : Nat, WFFields fs → fs.length ≤ fuel →
      parseFieldsAux fuel (encodeHeaderFields fs) = some fs := by
  induction fs with
  | nil =>
    intro fuel _ _
    cases fuel <;> simp [encodeHeaderFields, parseFieldsAux]
  | cons kv t ih =>
    intro fuel hwf hfuel
    obtain ⟨k, v⟩ := kv
    obtain ⟨f, rfl⟩ : ∃ f, fuel = f + 1 :=
      ⟨fuel - 1, by simp only [List.length_cons] at hfuel; omega⟩
    have hk : (61 : Nat) ∉ k := (hwf _ (List.mem_cons_self _ _)).1
    have hL : k.length + 1 + v.length < 2 ^ 32 :=
      (hwf _ (List.mem_cons_self _ _)).2
    have hb : encodeHeaderFields ((k, v) :: t) =
        u32le (k.length + 1 + v.length) ++
          ((k ++ 61 :: v) ++ encodeHeaderFields t) := by
      simp [encodeHeaderFields, encodeField]
    rw [hb]
    have hbody : (k ++ 61 :: v).length = k.length + 1 + v.length := by
      simp
      omega
    have htake : (u32le (k.length + 1 + v.length) ++
        ((k ++ 61 :: v) ++ encodeHeaderFields t)).take 4 =
        u32le (k.length + 1 + v.length) :=
      List.take_left' (u32le_length _)
    have hdrop : (u32le (k.length + 1 + v.length) ++
        ((k ++ 61 :: v) ++ encodeHeaderFields t)).drop 4 =
        (k ++ 61 :: v) ++ encodeHeaderFields t :=
      List.drop_left' (u32le_length _)
    have hleval : leVal (u32le (k.length + 1 + v.length)) =
        k.length + 1 + v.length := by
      rw [leVal_u32le]
      exact Nat.mod_eq_of_lt hL
    have hne : u32le (k.length + 1 + v.length) ++
        ((k ++ 61 :: v) ++ encodeHeaderFields t) ≠ [] := by
      intro h
      have := congrArg List.length h
      simp [u32le] at this
    have hcond : 4 ≤ (u32le (k.length + 1 + v.length) ++
        ((k ++ 61 :: v) ++ encodeHeaderFields t)).length ∧
        leVal ((u32le (k.length + 1 + v.length) ++
          ((k ++ 61 :: v) ++ encodeHeaderFields t)).take 4) ≤
        ((u32le (k.length + 1 + v.length) ++
          ((k ++ 61 :: v) ++ encodeHeaderFields t)).drop 4).length := by
      refine ⟨by simp [u32le], ?_⟩
      rw [htake, hdrop, hleval]
      simp only [List.length_append, List.length_cons]
      omega
    rw [parseFieldsAux, if_neg hne, if_pos hcond]
    rw [htake, hdrop, hleval]
    have htake2 : ((k ++ 61 :: v) ++ encodeHeaderFields t).take
        (k.length + 1 + v.length) = k ++ 61 :: v :=
      List.take_left' hbody
    have hdrop2 : ((k ++ 61 :: v) ++ encodeHeaderFields t).drop
        (k.length + 1 + v.length) = encodeHeaderFields t :=
      List.drop_left' hbody
    rw [htake2, hdrop2, splitAtEq_append hk]
    rw [ih f (fun p hp => hwf p (List.mem_cons_of_mem _ hp))
      (by simp only [List.length_cons] at hfuel; omega)]
    rfl

theorem parseFields_encode (fs : List (List Nat × List Nat))
    (hwf : WFFields fs) :
    parseFields (encodeHeaderFields fs) = some fs :=
  parseFieldsAux_encode fs _ hwf (length_le_encodeHeaderFields fs)

theorem encodeRecord_length (hdr data : List Nat) :
    (encodeRecord hdr data).length = 8 + hdr.length + data.length := by
  simp [encodeRecord, u32le]
  omega

theorem readU32At_encode (pre rest : List Nat) (n : Nat) :
    readU32At (pre ++ (u32le n ++ rest)) pre.length = some (n % 2 ^ 32) := by
  unfold readU32At
  rw [if_pos (by simp [u32le])]
  rw [List.drop_left, List.take_left' (u32le_length n), leVal_u32le]

theorem readHeaderAt_encodeRecord (pre hdr data post : List Nat)
    (fs : List (List Nat × List Nat)) (hparse : parseFields hdr = some fs)
    (hh : hdr.length < 2 ^ 32) :
    readHeaderAt (pre ++ (encodeRecord hdr data ++ post)) pre.length =
      some (fs, data.length % 2 ^ 32, pre.length + 8 + hdr.length) := by
  have hbuf : pre ++ (encodeRecord hdr data ++ post) =
      pre ++ (u32le hdr.length ++ (hdr ++ (u32le data.length ++ (data ++ post)))) := by
    simp [encodeRecord]
  rw [hbuf]
  have hu1 : readU32At (pre ++ (u32le hdr.length ++
      (hdr ++ (u32le data.length ++ (data ++ post))))) pre.length =
      some hdr.length := by
    rw [readU32At_encode, Nat.mod_eq_of_lt hh]
  have hle : pre.length + 4 + hdr.length ≤ (pre ++ (u32le hdr.length ++
      (hdr ++ (u32le data.length ++ (data ++ post))))).length := by
    simp [u32le]
    omega
  have hdrop1 : ((pre ++ (u32le hdr.length ++
      (hdr ++ (u32le data.length ++ (data ++ post))))).drop
        (pre.length + 4)).take hdr.length = hdr := by
    rw [show pre ++ (u32le hdr.length ++
          (hdr ++ (u32le data.length ++ (data ++ post)))) =
        (pre ++ u32le hdr.length) ++
          (hdr ++ (u32le data.length ++ (data ++ post))) by simp]
    rw [List.drop_left' (by simp [u32le])]
    exact List.take_left hdr _
  have hu2 : readU32At (pre ++ (u32le hdr.length ++
      (hdr ++ (u32le data.length ++ (data ++ post)))))
      (pre.length + 4 + hdr.length) = some (data.length % 2 ^ 32) := by
    rw [show pre ++ (u32le hdr.length ++
          (hdr ++ (u32le data.length ++ (data ++ post)))) =
        (pre ++ u32le hdr.length ++ hdr) ++
          (u32le data.length ++ (data ++ post)) by simp]
    rw [show pre.length + 4 + hdr.length =
      (pre ++ u32le hdr.length ++ hdr).length by simp [u32le]; omega]
    exact readU32At_encode _ _ _
  simp only [readHeaderAt, hu1, if_pos hle, hdrop1, hparse, hu2]

theorem readU32At_append {buf : List Nat} (ext : List Nat) {pos n : Nat}
    (h : readU32At buf pos = some n) : readU32At (buf ++ ext) pos = some n := by
  unfold readU32At at h ⊢
  by_cases hle : pos + 4 ≤ buf.length
  · rw [if_pos hle] at h
    rw [if_pos (by simp only [List.length_append]; omega)]
    rw [List.drop_append_of_le_length (by omega),
        List.take_append_of_le_length (by simp only [List.length_drop]; omega)]
    exact h
  · rw [if_neg hle] at h
    cases h

theorem readHeaderAt_append {buf : List Nat} (ext : List Nat) {pos : Nat}
    {r : List (List Nat × List Nat) × Nat × Nat}
    (h : readHeaderAt buf pos = some r) :
    readHeaderAt (buf ++ ext) pos = some r := by
  cases hu : readU32At buf pos with
  | none => simp only [readHeaderAt, hu] at h; cases h
  | some hlen =>
    by_cases hle : pos + 4 + hlen ≤ buf.length
    · have hdt : ((buf ++ ext).drop (pos + 4)).take hlen =
          (buf.drop (pos + 4)).take hlen := by
        rw [List.drop_append_of_le_length (by omega),
            List.take_append_of_le_length (by simp only [List.length_drop]; omega)]
      cases hp : parseFields ((buf.drop (pos + 4)).take hlen) with
      | none => simp only [readHeaderAt, hu, if_pos hle, hp] at h; cases h
      | some fs2 =>
        cases hu2 : readU32At buf (pos + 4 + hlen) with
        | none => simp only [readHeaderAt, hu, if_pos hle, hp, hu2] at h; cases h
        | some ds =>
          simp only [readHeaderAt, hu, if_pos hle, hp, hu2] at h
          simp only [readHeaderAt, readU32At_append ext hu,
            if_pos (show pos + 4 + hlen ≤ (buf ++ ext).length by
              simp only [List.length_append]; omega),
            hdt, hp, readU32At_append ext hu2]
          exact h
    · simp only [readHeaderAt, hu, if_neg hle] at h; cases h

theorem readMessageRecordAux_mono {buf : List Nat} :
    ∀ {fuel fuel' pos : Nat} {r},
      readMessageRecordAux fuel buf pos = some r → fuel ≤ fuel' →
      readMessageRecordAux fuel' buf pos = some r := by
  intro fuel
  induction fuel with
  | zero => intro fuel' pos r h _; cases h
  | succ f ih =>
    intro fuel' pos r h hf
    obtain ⟨f', rfl⟩ : ∃ g, fuel' = g + 1 := ⟨fuel' - 1, by omega⟩
    cases hh : readHeaderAt buf pos with
    | none => simp only [readMessageRecordAux, hh] at h; cases h
    | some t =>
      obtain ⟨fs, ds, pos'⟩ := t
      cases ho : readOpField fs with
      | none => simp only [readMessageRecordAux, hh, ho] at h; cases h
      | some op =>
        simp only [readMessageRecordAux, hh, ho] at h ⊢
        by_cases hop : op = OP_MSG_DEF
        · rw [if_pos hop] at h ⊢
          exact ih h (by omega)
        · rw [if_neg hop] at h ⊢
          exact h

theorem readMessageRecordAux_append {buf : List Nat} (ext : List Nat) :
    ∀ {fuel pos : Nat} {r},
      readMessageRecordAux fuel buf pos = some r →
      readMessageRecordAux fuel (buf ++ ext) pos = some r := by
  intro fuel
  induction fuel with
  | zero => intro pos r h; cases h
  | succ f ih =>
    intro pos r h
    cases hh : readHeaderAt buf pos with
    | none => simp only [readMessageRecordAux, hh] at h; cases h
    | some t =>
      obtain ⟨fs, ds, pos'⟩ := t
      cases ho : readOpField fs with
      | none => simp only [readMessageRecordAux, hh, ho] at h; cases h
      | some op =>
        simp only [readMessageRecordAux, hh, ho] at h
        simp only [readMessageRecordAux, readHeaderAt_append ext hh, ho]
        by_cases hop : op = OP_MSG_DEF
        · rw [if_pos hop] at h ⊢
          exact ih h
        · rw [if_neg hop] at h ⊢
          exact h

theorem readMessageRecordInBuffer_append {buf : List Nat} (ext : List Nat)
    {pos : Nat} {fs : List (List Nat × List Nat)} {data : List Nat}
    (h : readMessageRecordInBuffer buf pos = some (fs, data)) :
    readMessageRecordInBuffer (buf ++ ext) pos = some (fs, data) := by
  cases ha : readMessageRecordAux (buf.length + 1) buf pos with
  | none => simp only [readMessageRecordInBuffer, ha] at h; cases h
  | some t =>
    obtain ⟨fs', ds, pos'⟩ := t
    have ha2 : readMessageRecordAux ((buf ++ ext).length + 1) (buf ++ ext) pos =
        some (fs', ds, pos') :=
      readMessageRecordAux_mono (readMessageRecordAux_append ext ha)
        (by simp only [List.length_append]; omega)
    simp only [readMessageRecordInBuffer, ha] at h
    simp only [readMessageRecordInBuffer, ha2]
    by_cases hop : readOpField fs' = some OP_MSG_DATA
    · rw [if_pos hop] at h ⊢
      by_cases hle : pos' + ds ≤ buf.length
      · rw [if_pos hle] at h
        rw [if_pos (show pos' + ds ≤ (buf ++ ext).length by
          simp only [List.length_append]; omega)]
        have hdata : ((buf ++ ext).drop pos').take ds =
            (buf.drop pos').take ds := by
          rw [List.drop_append_of_le_length (by omega),
              List.take_append_of_le_length (by simp only [List.length_drop]; omega)]
        rw [hdata]
        exact h
      · rw [if_neg hle] at h
        cases h
    · rw [if_neg hop] at h
      cases h

/-! ### Parsing the records the writer emits into a chunk -/

theorem wf_msgDataFields (topic : List Nat) (time : BagTime)
    (ht : topic.length < 2 ^ 20) : WFFields (msgDataFields topic time) := by
  intro p hp
  simp only [msgDataFields, List.mem_cons, List.not_mem_nil, or_false] at hp
  rcases hp with rfl | rfl | rfl
  · exact ⟨by decide, by decide⟩
  · refine ⟨show (61 : Nat) ∉ timeKey by decide, ?_⟩
    show timeKey.length + 1 + (timeFieldBytes time).length < 2 ^ 32
    rw [show (timeFieldBytes time).length = 8 from rfl,
        show timeKey.length = 4 from rfl]
    decide
  · refine ⟨show (61 : Nat) ∉ topicKey by decide, ?_⟩
    show topicKey.length + 1 + topic.length < 2 ^ 32
    rw [show topicKey.length = 5 from rfl]
    omega

theorem wf_msgDefFields (info : TopicInfo) (hi : WFInfo info) :
    WFFields (msgDefFields info) := by
  obtain ⟨h1, h2, h3, h4⟩ := hi
  intro p hp
  simp only [msgDefFields, List.mem_cons, List.not_mem_nil, or_false] at hp
  rcases hp with rfl | rfl | rfl | rfl | rfl
  · refine ⟨show (61 : Nat) ∉ defKey by decide, ?_⟩
    show defKey.length + 1 + info.msg_def.length < 2 ^ 32
    rw [show defKey.length = 3 from rfl]
    omega
  · refine ⟨show (61 : Nat) ∉ md5Key by decide, ?_⟩
    show md5Key.length + 1 + info.md5sum.length < 2 ^ 32
    rw [show md5Key.length = 3 from rfl]
    omega
  · exact ⟨by decide, by decide⟩
  · refine ⟨show (61 : Nat) ∉ topicKey by decide, ?_⟩
    show topicKey.length + 1 + info.topic.length < 2 ^ 32
    rw [show topicKey.length = 5 from rfl]
    omega
  · refine ⟨show (61 : Nat) ∉ typeKey by decide, ?_⟩
    show typeKey.length + 1 + info.datatype.length < 2 ^ 32
    rw [show typeKey.length = 4 from rfl]
    omega

theorem msgDataHeader_length (topic : List Nat) (time : BagTime) :
    (encodeHeaderFields (msgDataFields topic time)).length = 35 + topic.length := by
  simp [encodeHeaderFields, msgDataFields, encodeField, u32le, timeFieldBytes,
    u64le, opKey, timeKey, topicKey, strBytes]
  omega

theorem readOpField_msgDataFields (topic : List Nat) (time : BagTime) :
    readOpField (msgDataFields topic time) = some OP_MSG_DATA := by
  simp [readOpField, readNumFieldSized, msgDataFields, lookupField, leVal,
    OP_MSG_DATA]

theorem readOpField_msgDefFields (info : TopicInfo) :
    readOpField (msgDefFields info) = some OP_MSG_DEF := by
  have h1 : ¬(defKey = opKey) := by decide
  have h2 : ¬(md5Key = opKey) := by decide
  simp [readOpField, readNumFieldSized, msgDefFields, lookupField, leVal,
    OP_MSG_DEF, h1, h2]

/-- Reading the record header at the start of an appended MSG_DATA record. -/
theorem readMessageRecordAux_msgData (f : Nat) (pre post : List Nat)
    (topic : List Nat) (time : BagTime) (payload : List Nat)
    (ht : topic.length < 2 ^ 20) :
    readMessageRecordAux (f + 1) (pre ++ (msgDataRecord topic time payload ++ post))
      pre.length =
      some (msgDataFields topic time, payload.length % 2 ^ 32,
        pre.length + 8 + (encodeHeaderFields (msgDataFields topic time)).length) := by
  have hlen : (encodeHeaderFields (msgDataFields topic time)).length < 2 ^ 32 := by
    rw [msgDataHeader_length]
    omega
  have hrh := readHeaderAt_encodeRecord pre
    (encodeHeaderFields (msgDataFields topic time)) payload post
    (msgDataFields topic time)
    (parseFields_encode _ (wf_msgDataFields topic time ht)) hlen
  simp only [readMessageRecordAux, msgDataRecord, hrh,
    readOpField_msgDataFields topic time]
  rw [if_neg (by decide)]

/-- Reading the record header at the start of an appended MSG_DEF record
skips it (its data section is empty). -/
theorem readMessageRecordAux_skipDef (f : Nat) (pre post : List Nat)
    (info : TopicInfo) (hi : WFInfo info) :
    readMessageRecordAux (f + 1) (pre ++ (msgDefRecord info ++ post)) pre.length =
      readMessageRecordAux f (pre ++ (msgDefRecord info ++ post))
        ((pre ++ msgDefRecord info).length) := by
  obtain ⟨h1, h2, h3, h4⟩ := hi
  have hlen : (encodeHeaderFields (msgDefFields info)).length < 2 ^ 32 := by
    simp [encodeHeaderFields, msgDefFields, encodeField, u32le, defKey, md5Key,
      opKey, topicKey, typeKey, strBytes]
    omega
  have hrh := readHeaderAt_encodeRecord pre
    (encodeHeaderFields (msgDefFields info)) [] post (msgDefFields info)
    (parseFields_encode _ (wf_msgDefFields info ⟨h1, h2, h3, h4⟩)) hlen
  simp only [readMessageRecordAux, msgDefRecord, hrh,
    readOpField_msgDefFields info, if_true]
  have hpos : (pre ++ encodeRecord (encodeHeaderFields (msgDefFields info)) []).length =
      pre.length + 8 + (encodeHeaderFields (msgDefFields info)).length := by
    simp only [List.length_append, encodeRecord_length, List.length_nil]
    omega
  rw [hpos]

/-- Wrapper step: if the skip loop lands on the MSG_DATA record whose data
section is the final `payload` bytes of the buffer, the buffer read
succeeds and returns those bytes. -/
theorem readMessageRecordInBuffer_of_aux {pre2 payload : List Nat}
    {pos : Nat} {topic : List Nat} {time : BagTime}
    (haux : readMessageRecordAux ((pre2 ++ payload).length + 1)
      (pre2 ++ payload) pos =
      some (msgDataFields topic time, payload.length % 2 ^ 32, pre2.length))
    (hp : payload.length < 2 ^ 32) :
    readMessageRecordInBuffer (pre2 ++ payload) pos =
      some (msgDataFields topic time, payload) := by
  have hmod : payload.length % 2 ^ 32 = payload.length := Nat.mod_eq_of_lt hp
  simp only [readMessageRecordInBuffer, haux,
    readOpField_msgDataFields topic time, if_pos rfl, hmod,
    List.drop_left, List.take_length]
  simp

/-- A MSG_DATA record appended at offset `d0.length` of the chunk data is
found there by the skip loop. -/
theorem readMessageRecordInBuffer_msgData (d0 : List Nat) (topic : List Nat)
    (time : BagTime) (payload : List Nat) (ht : topic.length < 2 ^ 20)
    (hp : payload.length < 2 ^ 32) :
    readMessageRecordInBuffer (d0 ++ msgDataRecord topic time payload) d0.length =
      some (msgDataFields topic time, payload) := by
  have haux1 := readMessageRecordAux_msgData 0 d0 [] topic time payload ht
  rw [List.append_nil] at haux1
  have haux := readMessageRecordAux_mono haux1
    (show 0 + 1 ≤ (d0 ++ msgDataRecord topic time payload).length + 1 by omega)
  have hsplit : d0 ++ msgDataRecord topic time payload =
      (d0 ++ (u32le (encodeHeaderFields (msgDataFields topic time)).length ++
        (encodeHeaderFields (msgDataFields topic time) ++
          u32le payload.length))) ++ payload := by
    simp [msgDataRecord, encodeRecord]
  have hpre2 : d0.length + 8 + (encodeHeaderFields (msgDataFields topic time)).length =
      (d0 ++ (u32le (encodeHeaderFields (msgDataFields topic time)).length ++
        (encodeHeaderFields (msgDataFields topic time) ++
          u32le payload.length))).length := by
    simp [u32le]
    omega
  rw [hsplit, hpre2] at haux
  rw [hsplit]
  exact readMessageRecordInBuffer_of_aux haux hp

/-- A MSG_DEF record followed by a MSG_DATA record appended at offset
`d0.length` of the chunk data: the skip loop steps over the definition and
finds the message. -/
theorem readMessageRecordInBuffer_defData (d0 : List Nat) (info : TopicInfo)
    (topic : List Nat) (time : BagTime) (payload : List Nat)
    (hi : WFInfo info) (ht : topic.length < 2 ^ 20)
    (hp : payload.length < 2 ^ 32) :
    readMessageRecordInBuffer
      (d0 ++ (msgDefRecord info ++ msgDataRecord topic time payload))
      d0.length = some (msgDataFields topic time, payload) := by
  have hstep := readMessageRecordAux_skipDef
    ((d0 ++ (msgDefRecord info ++ msgDataRecord topic time payload)).length)
    d0 (msgDataRecord topic time payload) info hi
  have hdata1 := readMessageRecordAux_msgData 0 (d0 ++ msgDefRecord info) []
    topic time payload ht
  rw [List.append_nil] at hdata1
  have hassoc : (d0 ++ msgDefRecord info) ++ msgDataRecord topic time payload =
      d0 ++ (msgDefRecord info ++ msgDataRecord topic time payload) := by
    simp
  rw [hassoc] at hdata1
  have hL : 0 + 1 ≤
      (d0 ++ (msgDefRecord info ++ msgDataRecord topic time payload)).length := by
    simp only [List.length_append, msgDefRecord, encodeRecord_length]
    omega
  have hdata := readMessageRecordAux_mono hdata1 hL
  have haux := hstep.trans hdata
  have hsplit : d0 ++ (msgDefRecord info ++ msgDataRecord topic time payload) =
      ((d0 ++ msgDefRecord info) ++
        (u32le (encodeHeaderFields (msgDataFields topic time)).length ++
          (encodeHeaderFields (msgDataFields topic time) ++
            u32le payload.length))) ++ payload := by
    simp [msgDataRecord, encodeRecord]
  have hpre2 : (d0 ++ msgDefRecord info).length + 8 +
      (encodeHeaderFields (msgDataFields topic time)).length =
      ((d0 ++ msgDefRecord info) ++
        (u32le (encodeHeaderFields (msgDataFields topic time)).length ++
          (encodeHeaderFields (msgDataFields topic time) ++
            u32le payload.length))).length := by
    simp [u32le]
    omega
  rw [hsplit, hpre2] at haux
  rw [hsplit]
  exact readMessageRecordInBuffer_of_aux haux hp

theorem readStringField_msgDataFields (topic : List Nat) (time : BagTime)
    (hne : topic ≠ []) (ht : topic.length < 2 ^ 20) :
    readStringField (msgDataFields topic time) topicKey = some topic := by
  have h1 : ¬(opKey = topicKey) := by decide
  have h2 : ¬(timeKey = topicKey) := by decide
  have hpos : 0 < topic.length := List.length_pos.mpr hne
  have hcond : 1 ≤ topic.length ∧ topic.length ≤ 2 ^ 32 - 1 := by omega
  simp only [readStringField, readStringFieldSized, msgDataFields,
    lookupField, if_neg h1, if_neg h2, if_pos rfl, if_true]
  rw [if_pos hcond]

theorem readTimeField_msgDataFields (topic : List Nat) (time : BagTime)
    (hs : time.sec < 2 ^ 32) (hn : time.nsec < 2 ^ 32) :
    readTimeField (msgDataFields topic time) timeKey = some time := by
  have h1 : ¬(opKey = timeKey) := by decide
  have hl8 : (timeFieldBytes time).length = 8 := rfl
  have hleval : leVal (timeFieldBytes time) = packTime time := by
    rw [timeFieldBytes, leVal_u64le]
    exact Nat.mod_eq_of_lt (packTime_lt time)
  simp only [readTimeField, readNumFieldSized, msgDataFields, lookupField,
    if_neg h1, if_pos rfl, hl8, if_true]
  rw [hleval, unpackTime_packTime time hs hn]

/-! ### The merge iterator -/

theorem timeLE_refl (a : BagTime) : timeLE a a := by
  unfold timeLE
  omega

theorem timeLE_trans {a b c : BagTime} (h1 : timeLE a b) (h2 : timeLE b c) :
    timeLE a c := by
  unfold timeLE at *
  omega

theorem timeLE_total (a b : BagTime) : timeLE a b ∨ timeLE b a := by
  unfold timeLE
  omega

theorem extractMin_perm (h : MergeHelper) (t : List MergeHelper) :
    List.Perm ((extractMin h t).1 :: (extractMin h t).2) (h :: t) := by
  induction t generalizing h with
  | nil => exact List.Perm.refl _
  | cons h2 t ih =>
    simp only [extractMin]
    by_cases hc : timeLEb (headTime h) (headTime h2) = true
    · rw [if_pos hc]
      exact ((List.Perm.swap h2 (extractMin h t).1 (extractMin h t).2).trans
        ((ih h).cons h2)).trans (List.Perm.swap h h2 t)
    · rw [if_neg hc]
      exact (List.Perm.swap h (extractMin h2 t).1 (extractMin h2 t).2).trans
        ((ih h2).cons h)

theorem extractMin_le (h : MergeHelper) (t : List MergeHelper) :
    ∀ x ∈ h :: t, timeLE (headTime (extractMin h t).1) (headTime x) := by
  induction t generalizing h with
  | nil =>
    intro x hx
    rcases List.mem_cons.mp hx with heq | hx2
    · rw [heq]
      exact timeLE_refl _
    · cases hx2
  | cons h2 t ih =>
    intro x hx
    simp only [extractMin]
    by_cases hc : timeLEb (headTime h) (headTime h2) = true
    · rw [if_pos hc]
      rcases List.mem_cons.mp hx with heq | hx2
      · rw [heq]
        exact ih h h (List.mem_cons_self _ _)
      rcases List.mem_cons.mp hx2 with heq | hx3
      · rw [heq]
        exact timeLE_trans (ih h h (List.mem_cons_self _ _))
          (of_decide_eq_true hc)
      · exact ih h x (List.mem_cons_of_mem _ hx3)
    · rw [if_neg hc]
      have hh : timeLE (headTime h2) (headTime h) := by
        rcases timeLE_total (headTime h) (headTime h2) with hle | hle
        · exact absurd (decide_eq_true hle) hc
        · exact hle
      rcases List.mem_cons.mp hx with heq | hx2
      · rw [heq]
        exact timeLE_trans (ih h2 h2 (List.mem_cons_self _ _)) hh
      rcases List.mem_cons.mp hx2 with heq | hx3
      · rw [heq]
        exact ih h2 h2 (List.mem_cons_self _ _)
      · exact ih h2 x (List.mem_cons_of_mem _ hx3)

theorem headTime_eq {m : MergeHelper} {e : IndexEntry} {tl : List IndexEntry}
    (h : m.rem = e :: tl) : headTime m = e.time := by
  unfold headTime
  rw [h]

/-- Every element emitted by the merge loop has time at least any lower
bound of the current helper heads (given sorted helpers). -/
theorem mergeLoop_lb :
    ∀ (fuel : Nat) (hs : List MergeHelper) (lb : BagTime),
      (∀ h ∈ hs,
        List.Pairwise (fun a b : IndexEntry => timeLE a.time b.time) h.rem) →
      (∀ h ∈ hs, timeLE lb (headTime h)) →
      ∀ x ∈ mergeLoop fuel hs, timeLE lb x.entry.time := by
  intro fuel
  induction fuel with
  | zero =>
    intro hs lb _ _ x hx
    simp [mergeLoop] at hx
  | succ f ih =>
    intro hs lb hsort hlb x hx
    cases hs with
    | nil => simp [mergeLoop] at hx
    | cons h t =>
      cases hem : extractMin h t with
      | mk m rest =>
        have hperm : List.Perm (m :: rest) (h :: t) := by
          have h1 := extractMin_perm h t
          rw [hem] at h1
          exact h1
        have hmem : ∀ y, y ∈ m :: rest → y ∈ h :: t := fun y hy =>
          hperm.mem_iff.mp hy
        cases hrem : m.rem with
        | nil =>
          simp only [mergeLoop, hem, hrem] at hx
          exact ih rest lb
            (fun y hy => hsort y (hmem y (List.mem_cons_of_mem m hy)))
            (fun y hy => hlb y (hmem y (List.mem_cons_of_mem m hy))) x hx
        | cons e tl =>
          simp only [mergeLoop, hem, hrem] at hx
          have hlbm : timeLE lb e.time := by
            have h2 := hlb m (hmem m (List.mem_cons_self _ _))
            rw [headTime_eq hrem] at h2
            exact h2
          rcases List.mem_cons.mp hx with heq | hx2
          · subst heq
            exact hlbm
          · refine ih _ lb ?_ ?_ x hx2
            · intro y hy
              by_cases htl : tl.isEmpty = true
              · rw [if_pos htl] at hy
                exact hsort y (hmem y (List.mem_cons_of_mem m hy))
              · rw [if_neg htl] at hy
                rcases List.mem_cons.mp hy with heq | hy2
                · subst heq
                  have h3 := hsort m (hmem m (List.mem_cons_self _ _))
                  rw [hrem] at h3
                  exact h3.of_cons
                · exact hsort y (hmem y (List.mem_cons_of_mem m hy2))
            · intro y hy
              by_cases htl : tl.isEmpty = true
              · rw [if_pos htl] at hy
                exact hlb y (hmem y (List.mem_cons_of_mem m hy))
              · rw [if_neg htl] at hy
                rcases List.mem_cons.mp hy with heq | hy2
                · subst heq
                  cases htl2 : tl with
                  | nil => rw [htl2] at htl; simp at htl
                  | cons e2 tl2 =>
                    have h3 := hsort m (hmem m (List.mem_cons_self _ _))
                    rw [hrem] at h3
                    have h4 : timeLE e.time e2.time :=
                      List.rel_of_pairwise_cons h3
                        (show e2 ∈ tl by
                          rw [htl2]
                          exact List.mem_cons_self _ _)
                    show timeLE lb e2.time
                    exact timeLE_trans hlbm h4
                · exact hlb y (hmem y (List.mem_cons_of_mem m hy2))

/-- The merge loop output is sorted by time when each helper's remaining
entries are sorted. -/
theorem mergeLoop_sorted :
    ∀ (fuel : Nat) (hs : List MergeHelper),
      (∀ h ∈ hs,
        List.Pairwise (fun a b : IndexEntry => timeLE a.time b.time) h.rem) →
      List.Pairwise (fun a b : MergeItem => timeLE a.entry.time b.entry.time)
        (mergeLoop fuel hs) := by
  intro fuel
  induction fuel with
  | zero =>
    intro hs _
    simp [mergeLoop]
  | succ f ih =>
    intro hs hsort
    cases hs with
    | nil => simp [mergeLoop]
    | cons h t =>
      cases hem : extractMin h t with
      | mk m rest =>
        have hperm : List.Perm (m :: rest) (h :: t) := by
          have h1 := extractMin_perm h t
          rw [hem] at h1
          exact h1
        have hmem : ∀ y, y ∈ m :: rest → y ∈ h :: t := fun y hy =>
          hperm.mem_iff.mp hy
        have hminle : ∀ y ∈ h :: t, timeLE (headTime m) (headTime y) := by
          have h1 := extractMin_le h t
          rw [hem] at h1
          exact h1
        cases hrem : m.rem with
        | nil =>
          simp only [mergeLoop, hem, hrem]
          exact ih rest
            (fun y hy => hsort y (hmem y (List.mem_cons_of_mem m hy)))
        | cons e tl =>
          simp only [mergeLoop, hem, hrem]
          have hsort2 : ∀ y ∈ (if tl.isEmpty then rest
              else ⟨m.topic, m.pos + 1, tl⟩ :: rest),
              List.Pairwise (fun a b : IndexEntry => timeLE a.time b.time)
                y.rem := by
            intro y hy
            by_cases htl : tl.isEmpty = true
            · rw [if_pos htl] at hy
              exact hsort y (hmem y (List.mem_cons_of_mem m hy))
            · rw [if_neg htl] at hy
              rcases List.mem_cons.mp hy with heq | hy2
              · subst heq
                have h3 := hsort m (hmem m (List.mem_cons_self _ _))
                rw [hrem] at h3
                exact h3.of_cons
              · exact hsort y (hmem y (List.mem_cons_of_mem m hy2))
          have hlb2 : ∀ y ∈ (if tl.isEmpty then rest
              else ⟨m.topic, m.pos + 1, tl⟩ :: rest),
              timeLE e.time (headTime y) := by
            intro y hy
            by_cases htl : tl.isEmpty = true
            · rw [if_pos htl] at hy
              have h2 := hminle y (hmem y (List.mem_cons_of_mem m hy))
              rw [headTime_eq hrem] at h2
              exact h2
            · rw [if_neg htl] at hy
              rcases List.mem_cons.mp hy with heq | hy2
              · subst heq
                cases htl2 : tl with
                | nil => rw [htl2] at htl; simp at htl
                | cons e2 tl2 =>
                  have h3 := hsort m (hmem m (List.mem_cons_self _ _))
                  rw [hrem] at h3
                  have h4 : timeLE e.time e2.time :=
                    List.rel_of_pairwise_cons h3
                      (show e2 ∈ tl by
                        rw [htl2]
                        exact List.mem_cons_self _ _)
                  show timeLE e.time e2.time
                  exact h4
              · have h2 := hminle y (hmem y (List.mem_cons_of_mem m hy2))
                rw [headTime_eq hrem] at h2
                exact h2
          refine List.Pairwise.cons ?_ (ih _ hsort2)
          intro b hb
          exact mergeLoop_lb f _ e.time hsort2 hlb2 b hb

/-- The merge loop with enough fuel emits a permutation of all the
helpers' item streams. -/
theorem mergeLoop_perm :
    ∀ (fuel : Nat) (hs : List MergeHelper),
      totalRem hs + hs.length ≤ fuel →
      List.Perm (mergeLoop fuel hs)
        (hs.flatMap fun h => itemsFrom h.topic h.pos h.rem) := by
  intro fuel
  induction fuel with
  | zero =>
    intro hs hfuel
    have h0 : hs = [] := by
      cases hs with
      | nil => rfl
      | cons h t => simp [totalRem] at hfuel
    subst h0
    exact List.Perm.refl _
  | succ f ih =>
    intro hs hfuel
    cases hs with
    | nil => exact List.Perm.refl _
    | cons h t =>
      cases hem : extractMin h t with
      | mk m rest =>
        have hperm : List.Perm (m :: rest) (h :: t) := by
          have h1 := extractMin_perm h t
          rw [hem] at h1
          exact h1
        have hflat : List.Perm
            ((m :: rest).flatMap fun h2 => itemsFrom h2.topic h2.pos h2.rem)
            ((h :: t).flatMap fun h2 => itemsFrom h2.topic h2.pos h2.rem) :=
          List.Perm.flatMap_right _ hperm
        have htotal : totalRem (m :: rest) = totalRem (h :: t) := by
          unfold totalRem
          exact (hperm.map fun h2 => h2.rem.length).sum_eq
        have hlen : (m :: rest).length = (h :: t).length := hperm.length_eq
        cases hrem : m.rem with
        | nil =>
          simp only [mergeLoop, hem, hrem]
          have hrec := ih rest (by
            simp only [totalRem, List.map_cons, List.sum_cons, hrem,
              List.length_nil, List.length_cons] at htotal hlen hfuel ⊢
            omega)
          have hflat2 : (m :: rest).flatMap
              (fun h2 => itemsFrom h2.topic h2.pos h2.rem) =
              rest.flatMap fun h2 => itemsFrom h2.topic h2.pos h2.rem := by
            simp [List.flatMap_cons, hrem, itemsFrom]
          rw [hflat2] at hflat
          exact hrec.trans hflat
        | cons e tl =>
          simp only [mergeLoop, hem, hrem]
          by_cases htl : tl.isEmpty = true
          · rw [if_pos htl]
            have htlnil : tl = [] := List.isEmpty_iff.mp htl
            subst htlnil
            have hrec := ih rest (by
              simp only [totalRem, List.map_cons, List.sum_cons, hrem,
                List.length_cons, List.length_nil] at htotal hlen hfuel ⊢
              omega)
            have hflat2 : (m :: rest).flatMap
                (fun h2 => itemsFrom h2.topic h2.pos h2.rem) =
                (⟨m.topic, m.pos, e⟩ : MergeItem) ::
                  rest.flatMap fun h2 => itemsFrom h2.topic h2.pos h2.rem := by
              simp [List.flatMap_cons, hrem, itemsFrom]
            rw [hflat2] at hflat
            exact (hrec.cons _).trans hflat
          · rw [if_neg htl]
            have hrec := ih (⟨m.topic, m.pos + 1, tl⟩ :: rest) (by
              simp only [totalRem, List.map_cons, List.sum_cons, hrem,
                List.length_cons] at htotal hlen hfuel ⊢
              omega)
            have hadv : (⟨m.topic, m.pos + 1, tl⟩ :: rest :
                List MergeHelper).flatMap
                (fun h2 => itemsFrom h2.topic h2.pos h2.rem) =
                itemsFrom m.topic (m.pos + 1) tl ++
                  rest.flatMap fun h2 => itemsFrom h2.topic h2.pos h2.rem := by
              simp [List.flatMap_cons]
            rw [hadv] at hrec
            have hflat2 : (m :: rest).flatMap
                (fun h2 => itemsFrom h2.topic h2.pos h2.rem) =
                (⟨m.topic, m.pos, e⟩ : MergeItem) ::
                  (itemsFrom m.topic (m.pos + 1) tl ++
                    rest.flatMap fun h2 => itemsFrom h2.topic h2.pos h2.rem) := by
              simp [List.flatMap_cons, hrem, itemsFrom]
            rw [hflat2] at hflat
            exact (hrec.cons _).trans hflat

theorem lookupAssoc_mem {β : Type} :
    ∀ (l : List (List Nat × β)) (k : List Nat) (v : β),
      lookupAssoc l k = some v → (k, v) ∈ l := by
  intro l
  induction l with
  | nil => intro k v h; cases h
  | cons p t ih =>
    intro k v h
    obtain ⟨k2, v2⟩ := p
    simp only [lookupAssoc] at h
    by_cases hk : k2 = k
    · rw [if_pos hk] at h
      injection h with h
      subst hk
      subst h
      exact List.mem_cons_self _ _
    · rw [if_neg hk] at h
      exact List.mem_cons_of_mem _ (ih k v h)

theorem mkMergeHelper_topic {indexes : List (List Nat × List IndexEntry)}
    {infos : List (List Nat × TopicInfo)} {s e : BagTime}
    {topic : List Nat} {h : MergeHelper}
    (hmk : mkMergeHelper indexes infos s e topic = some h) :
    h.topic = topic := by
  cases h1 : lookupAssoc indexes topic with
  | none =>
    cases h2 : lookupAssoc infos topic with
    | none => simp only [mkMergeHelper, h1, h2] at hmk; cases hmk
    | some i => simp only [mkMergeHelper, h1, h2] at hmk; cases hmk
  | some entries =>
    cases h2 : lookupAssoc infos topic with
    | none => simp only [mkMergeHelper, h1, h2] at hmk; cases hmk
    | some i =>
      simp only [mkMergeHelper, h1, h2] at hmk
      by_cases hne : ((entries.drop (lowerBound entries s)).take
          (upperBound entries e - lowerBound entries s)).isEmpty = true
      · rw [if_pos hne] at hmk; cases hmk
      · rw [if_neg hne] at hmk
        injection hmk with hmk
        subst hmk
        rfl

theorem mkMergeHelper_sorted {indexes : List (List Nat × List IndexEntry)}
    {infos : List (List Nat × TopicInfo)} {s e : BagTime}
    {topic : List Nat} {h : MergeHelper}
    (hsorted : ∀ p ∈ indexes,
      List.Pairwise (fun a b : IndexEntry => timeLE a.time b.time) p.2)
    (hmk : mkMergeHelper indexes infos s e topic = some h) :
    List.Pairwise (fun a b : IndexEntry => timeLE a.time b.time) h.rem := by
  cases h1 : lookupAssoc indexes topic with
  | none =>
    cases h2 : lookupAssoc infos topic with
    | none => simp only [mkMergeHelper, h1, h2] at hmk; cases hmk
    | some i => simp only [mkMergeHelper, h1, h2] at hmk; cases hmk
  | some entries =>
    cases h2 : lookupAssoc infos topic with
    | none => simp only [mkMergeHelper, h1, h2] at hmk; cases hmk
    | some i =>
      simp only [mkMergeHelper, h1, h2] at hmk
      by_cases hne : ((entries.drop (lowerBound entries s)).take
          (upperBound entries e - lowerBound entries s)).isEmpty = true
      · rw [if_pos hne] at hmk; cases hmk
      · rw [if_neg hne] at hmk
        injection hmk with hmk
        subst hmk
        have hp := hsorted _ (lookupAssoc_mem indexes topic entries h1)
        exact List.Pairwise.sublist
          ((List.take_sublist _ _).trans (List.drop_sublist _ _)) hp

theorem itemsFrom_mem_pos (topic : List Nat) :
    ∀ (p : Nat) (l : List IndexEntry) (x : MergeItem),
      x ∈ itemsFrom topic p l → x.topic = topic ∧ p ≤ x.pos := by
  intro p l
  induction l generalizing p with
  | nil => intro x hx; cases hx
  | cons e tl ih =>
    intro x hx
    simp only [itemsFrom, List.mem_cons] at hx
    rcases hx with rfl | hx
    · exact ⟨rfl, Nat.le_refl _⟩
    · obtain ⟨h1, h2⟩ := ih (p + 1) x hx
      exact ⟨h1, by omega⟩

theorem itemsFrom_proj_nodup (topic : List Nat) :
    ∀ (p : Nat) (l : List IndexEntry),
      ((itemsFrom topic p l).map fun it => (it.topic, it.pos)).Nodup := by
  intro p l
  induction l generalizing p with
  | nil => simp [itemsFrom]
  | cons e tl ih =>
    simp only [itemsFrom, List.map_cons, List.nodup_cons]
    refine ⟨?_, ih (p + 1)⟩
    intro hmem
    rcases List.mem_map.mp hmem with ⟨x, hx, hproj⟩
    have hle := (itemsFrom_mem_pos topic (p + 1) tl x hx).2
    have h2 : x.pos = p := congrArg Prod.snd hproj
    omega

theorem filterMap_mkMergeHelper_topics
    (indexes : List (List Nat × List IndexEntry))
    (infos : List (List Nat × TopicInfo)) (s e : BagTime) :
    ∀ topics : List (List Nat),
      List.Sublist
        ((topics.filterMap (mkMergeHelper indexes infos s e)).map
          fun h => h.topic) topics := by
  intro topics
  induction topics with
  | nil => simp
  | cons a t ih =>
    cases hma : mkMergeHelper indexes infos s e a with
    | none =>
      simp only [List.filterMap_cons, hma]
      exact List.Sublist.cons a ih
    | some h =>
      simp only [List.filterMap_cons, hma, List.map_cons]
      rw [mkMergeHelper_topic hma]
      exact List.Sublist.cons₂ a ih

theorem fileHeaderFields_length (ip tc cc : Nat) :
    (encodeHeaderFields (fileHeaderFields ip tc cc)).length = 70 := by
  simp [encodeHeaderFields, fileHeaderFields, encodeField, u32le, u64le,
    chunkCountKey, indexPosKey, opKey, topicCountKey, strBytes]

theorem parseFields_fileHeaderFields (ip tc cc : Nat) :
    parseFields (encodeHeaderFields (fileHeaderFields ip tc cc)) =
      some (fileHeaderFields ip tc cc) := by
  apply parseFields_encode
  intro p hp
  simp only [fileHeaderFields, List.mem_cons, List.not_mem_nil, or_false] at hp
  rcases hp with rfl | rfl | rfl | rfl
  · refine ⟨show (61 : Nat) ∉ chunkCountKey by decide, ?_⟩
    show chunkCountKey.length + 1 + (u32le cc).length < 2 ^ 32
    rw [show chunkCountKey.length = 11 from rfl, u32le_length]
    decide
  · refine ⟨show (61 : Nat) ∉ indexPosKey by decide, ?_⟩
    show indexPosKey.length + 1 + (u64le ip).length < 2 ^ 32
    rw [show indexPosKey.length = 9 from rfl, u64le_length]
    decide
  · exact ⟨by decide, by decide⟩
  · refine ⟨show (61 : Nat) ∉ topicCountKey by decide, ?_⟩
    show topicCountKey.length + 1 + (u32le tc).length < 2 ^ 32
    rw [show topicCountKey.length = 11 from rfl, u32le_length]
    decide

theorem writeFileHeaderRecord_eq (ip tc cc : Nat) :
    writeFileHeaderRecord ip tc cc =
      encodeRecord (encodeHeaderFields (fileHeaderFields ip tc cc))
        (List.replicate (FILE_HEADER_LENGTH - 70) 32) := by
  simp only [writeFileHeaderRecord, encodeRecord, fileHeaderFields_length,
    List.length_replicate]
  rw [if_pos (by norm_num [FILE_HEADER_LENGTH])]

/-! ### The writer invariant (C4) -/

theorem GoodEntry_append {topic d : List Nat} {e : IndexEntry}
    (ext : List Nat) (h : GoodEntry topic d e) :
    GoodEntry topic (d ++ ext) e := by
  obtain ⟨h1, h2, h3, h4, payload, h5⟩ := h
  exact ⟨h1, h2, h3, h4, payload, readMessageRecordInBuffer_append ext h5⟩

theorem assocApp_entry {β : Type} :
    ∀ (m : List (List Nat × List β)) (k : List Nat) (vs : List β),
      ∀ p ∈ assocApp m k vs, ∀ e ∈ p.2,
        (∃ q ∈ m, q.1 = p.1 ∧ e ∈ q.2) ∨ (p.1 = k ∧ e ∈ vs) := by
  intro m
  induction m with
  | nil =>
    intro k vs p hp e he
    simp only [assocApp, List.mem_singleton] at hp
    subst hp
    exact Or.inr ⟨rfl, he⟩
  | cons q t ih =>
    intro k vs p hp e he
    obtain ⟨k2, n⟩ := q
    by_cases hk : k2 = k
    · simp only [assocApp, if_pos hk] at hp
      rcases List.mem_cons.mp hp with heq | hpt
      · subst heq
        rcases List.mem_append.mp he with hen | hev
        · exact Or.inl ⟨(k2, n), List.mem_cons_self _ _, rfl, hen⟩
        · exact Or.inr ⟨hk, hev⟩
      · exact Or.inl ⟨p, List.mem_cons_of_mem _ hpt, rfl, he⟩
    · simp only [assocApp, if_neg hk] at hp
      rcases List.mem_cons.mp hp with heq | hpt
      · subst heq
        exact Or.inl ⟨(k2, n), List.mem_cons_self _ _, rfl, he⟩
      · rcases ih k vs p hpt e he with ⟨q2, hq, hq1, hq2⟩ | hr
        · exact Or.inl ⟨q2, List.mem_cons_of_mem _ hq, hq1, hq2⟩
        · exact Or.inr hr

theorem foldl_assocApp_entry {β : Type} :
    ∀ (l m : List (List Nat × List β)),
      ∀ p ∈ l.foldl (fun m2 q => assocApp m2 q.1 q.2) m, ∀ e ∈ p.2,
        (∃ q ∈ m, q.1 = p.1 ∧ e ∈ q.2) ∨ (∃ q ∈ l, q.1 = p.1 ∧ e ∈ q.2) := by
  intro l
  induction l with
  | nil =>
    intro m p hp e he
    exact Or.inl ⟨p, hp, rfl, he⟩
  | cons a t ih =>
    intro m p hp e he
    simp only [List.foldl_cons] at hp
    rcases ih (assocApp m a.1 a.2) p hp e he with ⟨q, hq, hq1, hq2⟩ | ⟨q, hq, hq1, hq2⟩
    · rcases assocApp_entry m a.1 a.2 q hq e hq2 with ⟨r, hr, hr1, hr2⟩ | ⟨h1, h2⟩
      · exact Or.inl ⟨r, hr, hr1.trans hq1, hr2⟩
      · exact Or.inr ⟨a, List.mem_cons_self _ _, h1.symm.trans hq1, h2⟩
    · exact Or.inr ⟨q, List.mem_cons_of_mem _ hq, hq1, hq2⟩

theorem stopWritingChunk_inv (compression : List Nat)
    (compressFn : List Nat → List Nat) {s : WriterState}
    (hc : ClosedInv s) (ho : OpenInv s) :
    WriterInv (stopWritingChunk compression compressFn s) := by
  have hT : (stopWritingChunk compression compressFn s).topic_indexes =
      s.curr_chunk_topic_indexes.foldl (fun m2 q => assocApp m2 q.1 q.2)
        s.topic_indexes := rfl
  have hC : (stopWritingChunk compression compressFn s).chunk_infos =
      s.chunk_infos ++ [s.curr_chunk_info] := rfl
  have hD : (stopWritingChunk compression compressFn s).chunk_datas =
      s.chunk_datas ++ [(s.curr_chunk_info.pos, s.curr_chunk_data)] := rfl
  have hCC : (stopWritingChunk compression compressFn s).curr_chunk_topic_indexes =
      [] := rfl
  refine ⟨?_, ?_, ?_⟩
  · intro p hp e he
    rw [hT] at hp
    rw [hC, hD]
    rcases foldl_assocApp_entry _ _ p hp e he with ⟨q, hq, hq1, hq2⟩ | ⟨q, hq, hq1, hq2⟩
    · rcases hc q hq e hq2 with ⟨c, hcm, hcp, d, hdm, hgood⟩
      refine ⟨c, List.mem_append_left _ hcm, hcp, d, List.mem_append_left _ hdm, ?_⟩
      rw [← hq1]
      exact hgood
    · obtain ⟨hpos, hgood⟩ := ho q hq e hq2
      refine ⟨s.curr_chunk_info,
        List.mem_append_right _ (List.mem_cons_self _ _), hpos.symm,
        s.curr_chunk_data,
        List.mem_append_right _ (List.mem_cons_self _ _), ?_⟩
      rw [← hq1]
      exact hgood
  · intro p hp e he
    rw [hCC] at hp
    cases hp
  · intro _
    exact hCC

theorem recordEntry_inv (u : WriterState) (topic : List Nat) (time : BagTime)
    (d2 ext : List Nat) (tc : List (List Nat × Nat)) (et : BagTime)
    (hd2 : d2 = u.curr_chunk_data ++ ext)
    (hc : ClosedInv u) (ho : OpenInv u)
    (hgood : GoodEntry topic d2
      ⟨time, u.curr_chunk_info.pos, u.curr_chunk_data.length⟩) :
    WriterInv { u with
      chunk_open := true
      curr_chunk_topic_indexes := assocApp u.curr_chunk_topic_indexes topic
        [⟨time, u.curr_chunk_info.pos, u.curr_chunk_data.length⟩]
      curr_chunk_data := d2
      curr_chunk_info :=
        ⟨u.curr_chunk_info.pos, u.curr_chunk_info.start_time, et, tc⟩ } := by
  refine ⟨?_, ?_, ?_⟩
  · exact hc
  · intro p hp e he
    have hp2 : p ∈ assocApp u.curr_chunk_topic_indexes topic
      [⟨time, u.curr_chunk_info.pos, u.curr_chunk_data.length⟩] := hp
    rcases assocApp_entry _ _ _ p hp2 e he with ⟨q, hq, hq1, hq2⟩ | ⟨h1, h2⟩
    · obtain ⟨hpos, hgood2⟩ := ho q hq e hq2
      refine ⟨hpos, ?_⟩
      rw [← hq1, hd2]
      exact GoodEntry_append ext hgood2
    · rw [List.mem_singleton] at h2
      subst h2
      refine ⟨rfl, ?_⟩
      rw [← h1]  at hgood
      exact hgood
  · intro hfo
    have hfo2 : true = false := hfo
    cases hfo2

theorem closeIfOver_inv (compression : List Nat)
    (compressFn : List Nat → List Nat) (chunkThreshold : Nat)
    {n : Nat} {t : WriterState} (hinv : WriterInv t) :
    WriterInv (if chunkThreshold < n
      then stopWritingChunk compression compressFn t else t) := by
  by_cases hth : chunkThreshold < n
  · rw [if_pos hth]
    exact stopWritingChunk_inv compression compressFn hinv.1 hinv.2.1
  · rw [if_neg hth]
    exact hinv

theorem insertTopic_inv {s : WriterState} (hinv : WriterInv s)
    (topic : List Nat) (info : TopicInfo) :
    WriterInv { s with
      topic_infos := s.topic_infos ++ [(topic, info)]
      topic_indexes := s.topic_indexes ++ [(topic, [])] } := by
  obtain ⟨hc, ho, hcl⟩ := hinv
  refine ⟨?_, ?_, ?_⟩
  · intro p hp e he
    have hp2 : p ∈ s.topic_indexes ++ [(topic, [])] := hp
    rcases List.mem_append.mp hp2 with hold | hnew
    · exact hc p hold e he
    · rw [List.mem_singleton] at hnew
      subst hnew
      have he2 : e ∈ ([] : List IndexEntry) := he
      cases he2
  · exact ho
  · exact hcl

theorem startWritingChunk_closedInv (compression : List Nat)
    {s : WriterState} (hc : ClosedInv s) (time : BagTime) :
    ClosedInv (startWritingChunk compression s time) :=
  hc

theorem startWritingChunk_openInv (compression : List Nat)
    {s : WriterState} (hE : s.curr_chunk_topic_indexes = [])
    (time : BagTime) :
    OpenInv (startWritingChunk compression s time) := by
  intro p hp e he
  have hp2 : p ∈ s.curr_chunk_topic_indexes := hp
  rw [hE] at hp2
  cases hp2

theorem doWrite_inv (compression : List Nat)
    (compressFn : List Nat → List Nat) (chunkThreshold : Nat)
    {s : WriterState} {op : WriteOp}
    (hop : WFOp op) (hinv : WriterInv s) :
    WriterInv (doWrite compression compressFn chunkThreshold s op) := by
  obtain ⟨hc, ho, hcl⟩ := hinv
  have hop2 : op.topic ≠ [] ∧ op.topic.length < 2 ^ 20 ∧
      op.payload.length < 2 ^ 32 ∧ op.msg_def.length < 2 ^ 20 ∧
      op.datatype.length < 2 ^ 20 ∧ op.md5sum.length < 2 ^ 20 ∧
      op.time.sec < 2 ^ 32 ∧ op.time.nsec < 2 ^ 32 := hop
  obtain ⟨hne, hlen, hpay, hmd, hdt, hmd5, hsec, hnsec⟩ := hop2
  cases hfound : lookupAssoc s.topic_infos op.topic with
  | some i =>
    cases hopen : s.chunk_open with
    | true =>
      simp only [doWrite, hfound, Option.isNone_some, Bool.false_eq_true,
        if_false, hopen, eq_self_iff_true, if_true]
      apply closeIfOver_inv
      exact recordEntry_inv s op.topic op.time
        (s.curr_chunk_data ++ msgDataRecord op.topic op.time op.payload)
        (msgDataRecord op.topic op.time op.payload)
        (assocBump s.curr_chunk_info.topic_counts op.topic)
        (if timeLTb s.curr_chunk_info.end_time op.time then op.time
          else s.curr_chunk_info.end_time)
        rfl hc ho
        ⟨hne, hlen, hsec, hnsec, op.payload,
          readMessageRecordInBuffer_msgData s.curr_chunk_data op.topic
            op.time op.payload hlen hpay⟩
    | false =>
      have hE : s.curr_chunk_topic_indexes = [] := hcl hopen
      simp only [doWrite, hfound, Option.isNone_some, Bool.false_eq_true,
        if_false, hopen]
      apply closeIfOver_inv
      exact recordEntry_inv (startWritingChunk compression s op.time)
        op.topic op.time
        ((startWritingChunk compression s op.time).curr_chunk_data ++
          msgDataRecord op.topic op.time op.payload)
        (msgDataRecord op.topic op.time op.payload)
        (assocBump (startWritingChunk compression s
          op.time).curr_chunk_info.topic_counts op.topic)
        (if timeLTb (startWritingChunk compression s
            op.time).curr_chunk_info.end_time op.time then op.time
          else (startWritingChunk compression s op.time).curr_chunk_info.end_time)
        rfl
        (startWritingChunk_closedInv compression hc op.time)
        (startWritingChunk_openInv compression hE op.time)
        ⟨hne, hlen, hsec, hnsec, op.payload,
          readMessageRecordInBuffer_msgData
            (startWritingChunk compression s op.time).curr_chunk_data
            op.topic op.time op.payload hlen hpay⟩
  | none =>
    have hins := insertTopic_inv ⟨hc, ho, hcl⟩ op.topic
      ⟨op.topic, op.msg_def, op.datatype, op.md5sum⟩
    obtain ⟨hc1, ho1, hcl1⟩ := hins
    have hread := readMessageRecordInBuffer_defData s.curr_chunk_data
      ⟨op.topic, op.msg_def, op.datatype, op.md5sum⟩ op.topic op.time
      op.payload ⟨hlen, hmd, hdt, hmd5⟩ hlen hpay
    cases hopen : s.chunk_open with
    | true =>
      simp only [doWrite, hfound, Option.isNone_none, Bool.false_eq_true,
        if_false, hopen, eq_self_iff_true, if_true]
      apply closeIfOver_inv
      rw [← List.append_assoc] at hread
      exact recordEntry_inv { s with
          topic_infos := s.topic_infos ++ [(op.topic,
            ⟨op.topic, op.msg_def, op.datatype, op.md5sum⟩)]
          topic_indexes := s.topic_indexes ++ [(op.topic, [])] }
        op.topic op.time
        ((s.curr_chunk_data ++
          msgDefRecord ⟨op.topic, op.msg_def, op.datatype, op.md5sum⟩) ++
          msgDataRecord op.topic op.time op.payload)
        (msgDefRecord ⟨op.topic, op.msg_def, op.datatype, op.md5sum⟩ ++
          msgDataRecord op.topic op.time op.payload)
        (assocBump s.curr_chunk_info.topic_counts op.topic)
        (if timeLTb s.curr_chunk_info.end_time op.time then op.time
          else s.curr_chunk_info.end_time)
        (List.append_assoc _ _ _) hc1 ho1
        ⟨hne, hlen, hsec, hnsec, op.payload, hread⟩
    | false =>
      have hE : s.curr_chunk_topic_indexes = [] := hcl hopen
      simp only [doWrite, hfound, Option.isNone_none, Bool.false_eq_true,
        if_false, hopen, eq_self_iff_true, if_true]
      apply closeIfOver_inv
      have hread2 := readMessageRecordInBuffer_defData
        (startWritingChunk compression { s with
          topic_infos := s.topic_infos ++ [(op.topic,
            ⟨op.topic, op.msg_def, op.datatype, op.md5sum⟩)]
          topic_indexes := s.topic_indexes ++ [(op.topic, [])] }
          op.time).curr_chunk_data
        ⟨op.topic, op.msg_def, op.datatype, op.md5sum⟩ op.topic op.time
        op.payload ⟨hlen, hmd, hdt, hmd5⟩ hlen hpay
      rw [← List.append_assoc] at hread2
      exact recordEntry_inv
        (startWritingChunk compression { s with
          topic_infos := s.topic_infos ++ [(op.topic,
            ⟨op.topic, op.msg_def, op.datatype, op.md5sum⟩)]
          topic_indexes := s.topic_indexes ++ [(op.topic, [])] } op.time)
        op.topic op.time
        (((startWritingChunk compression { s with
            topic_infos := s.topic_infos ++ [(op.topic,
              ⟨op.topic, op.msg_def, op.datatype, op.md5sum⟩)]
            topic_indexes := s.topic_indexes ++ [(op.topic, [])] }
            op.time).curr_chunk_data ++
          msgDefRecord ⟨op.topic, op.msg_def, op.datatype, op.md5sum⟩) ++
          msgDataRecord op.topic op.time op.payload)
        (msgDefRecord ⟨op.topic, op.msg_def, op.datatype, op.md5sum⟩ ++
          msgDataRecord op.topic op.time op.payload)
        (assocBump s.curr_chunk_info.topic_counts op.topic)
        (if timeLTb s.curr_chunk_info.end_time op.time then op.time
          else s.curr_chunk_info.end_time)
        (List.append_assoc _ _ _) hc1
        (startWritingChunk_openInv compression hE op.time)
        ⟨hne, hlen, hsec, hnsec, op.payload, hread2⟩

theorem foldl_doWrite_inv (compression : List Nat)
    (compressFn : List Nat → List Nat) (chunkThreshold : Nat) :
    ∀ (ops : List WriteOp) (s : WriterState),
      (∀ op ∈ ops, WFOp op) → WriterInv s →
      WriterInv (ops.foldl (doWrite compression compressFn chunkThreshold) s) := by
  intro ops
  induction ops with
  | nil => intro s _ h; exact h
  | cons a t ih =>
    intro s hops h
    simp only [List.foldl_cons]
    exact ih _ (fun op2 hop2 => hops op2 (List.mem_cons_of_mem _ hop2))
      (doWrite_inv compression compressFn chunkThreshold
        (hops a (List.mem_cons_self _ _)) h)

theorem startWritingVersion103_inv : WriterInv startWritingVersion103 := by
  refine ⟨?_, ?_, ?_⟩
  · intro p hp e he
    have hp2 : p ∈ ([] : List (List Nat × List IndexEntry)) := hp
    cases hp2
  · intro p hp e he
    have hp2 : p ∈ ([] : List (List Nat × List IndexEntry)) := hp
    cases hp2
  · intro _
    rfl

theorem stopWritingVersion103_topic_indexes (compression : List Nat)
    (compressFn : List Nat → List Nat) (s : WriterState) :
    (stopWritingVersion103 compression compressFn s).topic_indexes =
      (if s.chunk_open then stopWritingChunk compression compressFn s
        else s).topic_indexes := rfl

theorem stopWritingVersion103_chunk_infos (compression : List Nat)
    (compressFn : List Nat → List Nat) (s : WriterState) :
    (stopWritingVersion103 compression compressFn s).chunk_infos =
      (if s.chunk_open then stopWritingChunk compression compressFn s
        else s).chunk_infos := rfl

theorem stopWritingVersion103_chunk_datas (compression : List Nat)
    (compressFn : List Nat → List Nat) (s : WriterState) :
    (stopWritingVersion103 compression compressFn s).chunk_datas =
      (if s.chunk_open then stopWritingChunk compression compressFn s
        else s).chunk_datas := rfl

theorem stopWritingVersion103_inv (compression : List Nat)
    (compressFn : List Nat → List Nat) {s : WriterState}
    (hinv : WriterInv s) :
    ClosedInv (stopWritingVersion103 compression compressFn s) := by
  intro p hp e he
  rw [stopWritingVersion103_topic_indexes] at hp
  rw [stopWritingVersion103_chunk_infos, stopWritingVersion103_chunk_datas]
  by_cases hopen : s.chunk_open = true
  · rw [if_pos hopen] at hp ⊢
    exact (stopWritingChunk_inv compression compressFn hinv.1 hinv.2.1).1
      p hp e he
  · rw [if_neg hopen] at hp ⊢
    exact hinv.1 p hp e he

/-! # Claims -/

/-- C7: encoding a time with 32-bit `sec` and `nsec` fields into the packed
little-endian `u64` header representation and reading it back through the
`Time` overload of `readField` (mask of the low 33 bits, `uint32_t` casts,
shift by 32) recovers exactly `(sec, nsec)`. -/
theorem claim_c7_time_roundtrip (fs : List (List Nat × List Nat))
    (key : List Nat) (t : BagTime)
    (hfield : lookupField fs key = some (timeFieldBytes t))
    (hs : t.sec < 2 ^ 32) (hn : t.nsec < 2 ^ 32) :
    readTimeField fs key = some t := by
  have hl8 : (timeFieldBytes t).length = 8 := rfl
  have hleval : leVal (timeFieldBytes t) = packTime t := by
    rw [timeFieldBytes, leVal_u64le]
    exact Nat.mod_eq_of_lt (packTime_lt t)
  simp only [readTimeField, readNumFieldSized, hfield, hl8, if_true]
  rw [hleval, unpackTime_packTime t hs hn]

theorem claim_c7_witness :
    readTimeField [(timeKey, timeFieldBytes ⟨10, 20⟩)] timeKey =
      some ⟨10, 20⟩ :=
  claim_c7_time_roundtrip _ timeKey ⟨10, 20⟩ (by decide) (by decide) (by decide)

/-- C6 (amended): `checkDisk` disables writing below 1 GiB free, leaves the
flag unchanged between 1 GiB and 5 GiB (it only warns), and re-enables
writing only at 5 GiB or more. -/
theorem claim_c6_checkDisk (enabled : Bool) (free : Nat) :
    (free < 1073741824 → (checkDisk enabled free).1 = false) ∧
    (1073741824 ≤ free → free < 5368709120 →
      (checkDisk enabled free).1 = enabled) ∧
    (5368709120 ≤ free → (checkDisk enabled free).1 = true) := by
  unfold checkDisk
  refine ⟨fun h => by rw [if_pos h], fun h1 h2 => ?_, fun h => ?_⟩
  · rw [if_neg (by omega), if_pos h2]
  · rw [if_neg (by omega), if_neg (by omega)]

theorem claim_c6_witness :
    (checkDisk true 0).1 = false ∧ (checkDisk false 2147483648).1 = false ∧
    (checkDisk false 5368709120).1 = true :=
  ⟨(claim_c6_checkDisk true 0).1 (by decide),
   (claim_c6_checkDisk false 2147483648).2.1 (by decide) (by decide),
   (claim_c6_checkDisk false 5368709120).2.2 (by decide)⟩

/-- C6 counterexample: after writing was disabled, a `checkDisk` call with
2 GiB free — above the 1 GiB threshold of the claim — leaves the
write-enabled flag `false` (the code re-enables only at ≥ 5 GiB). -/
theorem claim_c6_counterexample : (checkDisk false 2147483648).1 = false := by
  decide

/-- C3 counterexample: the FILE_HEADER record of a fresh writer occupies
4104 bytes on disk, not `FILE_HEADER_LENGTH` = 4096: the padding is
computed as `FILE_HEADER_LENGTH - header_len`, which excludes the two u32
length prefixes. -/
theorem claim_c3_counterexample :
    (writeFileHeaderRecord 0 0 0).length ≠ FILE_HEADER_LENGTH := by
  have hh : (encodeHeaderFields (fileHeaderFields 0 0 0)).length = 70 := by
    simp [encodeHeaderFields, fileHeaderFields, encodeField, u32le, u64le,
      chunkCountKey, indexPosKey, opKey, topicCountKey, strBytes]
  simp only [writeFileHeaderRecord, hh]
  rw [if_pos (by norm_num [FILE_HEADER_LENGTH])]
  simp only [List.length_append, u32le_length, List.length_replicate, hh]
  norm_num [FILE_HEADER_LENGTH]

/-- C3 (amended): for every `index_pos`, `topic_count` and `chunk_count`,
the FILE_HEADER record occupies exactly `FILE_HEADER_LENGTH + 8` bytes on
disk: the header bytes plus the space padding sum to `FILE_HEADER_LENGTH`,
and the two u32 length prefixes add 8 more. -/
theorem claim_c3_fileHeader_length (ip tc cc : Nat) :
    (writeFileHeaderRecord ip tc cc).length = FILE_HEADER_LENGTH + 8 := by
  have hh : (encodeHeaderFields (fileHeaderFields ip tc cc)).length = 70 := by
    simp [encodeHeaderFields, fileHeaderFields, encodeField, u32le, u64le,
      chunkCountKey, indexPosKey, opKey, topicCountKey, strBytes]
  simp only [writeFileHeaderRecord, hh]
  rw [if_pos (by norm_num [FILE_HEADER_LENGTH])]
  simp only [List.length_append, u32le_length, List.length_replicate, hh]
  norm_num [FILE_HEADER_LENGTH]

/-- C1: the data section of an INDEX_DATA record is the packed array of
`count` entries of `(u32 sec, u32 nsec, u32 offset)` — 12 bytes each — but
the record's u32 data-length prefix is `count * sizeof (IndexEntry)`
(20 or 24), which differs from the actual byte length `12 * count` for
every nonempty index. -/
theorem claim_c1_indexDataRecord (topic : List Nat)
    (entries : List IndexEntry) (hne : entries ≠ [])
    (hsz : entries.length * sizeofIndexEntry < 2 ^ 32) :
    indexDataRecord sizeofIndexEntry topic entries =
      u32le (encodeHeaderFields
        [(countKey, u32le entries.length), (opKey, [OP_INDEX_DATA]),
         (topicKey, topic), (verKey, u32le INDEX_VERSION)]).length ++
      encodeHeaderFields
        [(countKey, u32le entries.length), (opKey, [OP_INDEX_DATA]),
         (topicKey, topic), (verKey, u32le INDEX_VERSION)] ++
      u32le (entries.length * sizeofIndexEntry) ++
      entries.flatMap indexEntryBytes ∧
    (entries.flatMap indexEntryBytes).length = 12 * entries.length ∧
    u32le (entries.length * sizeofIndexEntry) ≠
      u32le (12 * entries.length) := by
  refine ⟨rfl, ?_, ?_⟩
  · have h12 : ∀ es : List IndexEntry,
        (es.flatMap indexEntryBytes).length = 12 * es.length := by
      intro es
      induction es with
      | nil => simp
      | cons e tl ih =>
        simp only [List.flatMap_cons, List.length_append, List.length_cons, ih]
        rw [show (indexEntryBytes e).length = 12 from rfl]
        omega
    exact h12 entries
  · intro heq
    have hcount : 1 ≤ entries.length := by
      cases entries with
      | nil => exact absurd rfl hne
      | cons e tl => simp
    have hsz24 : sizeofIndexEntry = 24 := rfl
    have h12 : 12 * entries.length < 2 ^ 32 := by
      rw [hsz24] at hsz
      omega
    have := u32le_inj hsz h12 heq
    rw [hsz24] at this
    omega

theorem claim_c1_witness :
    u32le (([⟨⟨1, 0⟩, 100, 0⟩] : List IndexEntry).length * sizeofIndexEntry) ≠
      u32le (12 * ([⟨⟨1, 0⟩, 100, 0⟩] : List IndexEntry).length) :=
  (claim_c1_indexDataRecord [97] [⟨⟨1, 0⟩, 100, 0⟩] (by decide)
    (by decide)).2.2

/-- C10: when `readMessageDefinitionRecord` reads a well-formed MSG_DEF
record for a topic already present in `topic_infos_`, it returns success
and leaves the stored map unchanged (first definition wins). -/
theorem claim_c10_duplicate_def (file : List Nat) (pos : Nat)
    (infos : List (List Nat × TopicInfo)) (fs : List (List Nat × List Nat))
    (ds pos' : Nat) (topic md5 dt df : List Nat) (info : TopicInfo)
    (hrh : readHeaderAt file pos = some (fs, ds, pos'))
    (hop : readOpField fs = some OP_MSG_DEF)
    (htopic : readStringField fs topicKey = some topic)
    (hmd5 : readStringFieldSized fs md5Key 32 32 = some md5)
    (htype : readStringField fs typeKey = some dt)
    (hdef : readStringFieldSized fs defKey 0 (2 ^ 32 - 1) = some df)
    (hmem : lookupAssoc infos topic = some info) :
    readMessageDefinitionRecord file pos infos = some (pos', infos) := by
  simp only [readMessageDefinitionRecord, hrh, hop, htopic, hmd5, htype, hdef,
    hmem, if_true]

/-- C5: opening in Read mode a v1.03 file whose FILE_HEADER carries the
sentinel `index_pos = 0` (with zero topic and chunk counts — exactly the
header `openWrite` leaves behind when the writer never finishes) does not
fail: `startReadingVersion103` returns `true`, loading an empty trailer,
because the source never checks `index_pos == 0`. -/
theorem claim_c5_sentinel_not_rejected :
    startReadingVersion103 (versionLineBytes ++ writeFileHeaderRecord 0 0 0)
      versionLineBytes.length = true := by
  have hrec := readHeaderAt_encodeRecord versionLineBytes
    (encodeHeaderFields (fileHeaderFields 0 0 0))
    (List.replicate (FILE_HEADER_LENGTH - 70) 32) []
    (fileHeaderFields 0 0 0) (parseFields_fileHeaderFields 0 0 0)
    (by rw [fileHeaderFields_length]; norm_num)
  rw [List.append_nil, ← writeFileHeaderRecord_eq] at hrec
  have hop : readOpField (fileHeaderFields 0 0 0) = some OP_FILE_HEADER := by
    decide
  have hip : readNumFieldSized (fileHeaderFields 0 0 0) indexPosKey 8 =
      some 0 := by decide
  have htc : readNumFieldSized (fileHeaderFields 0 0 0) topicCountKey 4 =
      some 0 := by decide
  have hcc : readNumFieldSized (fileHeaderFields 0 0 0) chunkCountKey 4 =
      some 0 := by decide
  simp only [startReadingVersion103, readFileHeaderRecord, hrec, hop, hip,
    htc, hcc, Option.getD_some, if_true, readMsgDefLoop, readChunkInfoLoop,
    readChunkIndexes, Option.isSome]

set_option maxRecDepth 4000 in
/-- C2: `readMessageDataRecord103` decompresses a chunk only when its
compression field is `bz2`.  With the toy codec, the same one-message
chunk is recovered from a BZ2 chunk and from an uncompressed chunk, but
the ZLIB chunk falls into the uncompressed-file branch, which misparses
the compressed bytes and fails — compression is not neutral. -/
theorem claim_c2_zlib_not_decompressed :
    readMessageDataRecord103 toyDecompress
      ⟨c2File COMPRESSION_ZLIB (toyCompress c2Message), 0, []⟩
      (strBytes "/a") 16 0 = none ∧
    (readMessageDataRecord103 toyDecompress
      ⟨c2File COMPRESSION_BZ2 (toyCompress c2Message), 0, []⟩
      (strBytes "/a") 16 0).map (fun p => p.2) = some [222, 173] ∧
    (readMessageDataRecord103 toyDecompress
      ⟨c2File COMPRESSION_NONE c2Message, 0, []⟩
      (strBytes "/a") 16 0).map (fun p => p.2) = some [222, 173] := by
  refine ⟨by decide, by decide, by decide⟩

set_option maxRecDepth 4000 in
/-- C4 counterexample: after writing a single message on a fresh topic and
closing, the recorded index entry's offset points at a MSG_DEF record
(op = 1), not at the MSG_DATA record: the offset is captured before the
definition record is written into the chunk. -/
theorem claim_c4_counterexample :
    ∃ p ∈ (runWriter COMPRESSION_NONE id 0 [c4Op]).topic_indexes,
      ∃ e ∈ p.2, ∃ d,
        (e.chunk_pos, d) ∈ (runWriter COMPRESSION_NONE id 0 [c4Op]).chunk_datas ∧
        ∃ fs ds pos2, readHeaderAt d e.offset = some (fs, ds, pos2) ∧
          readOpField fs = some OP_MSG_DEF := by
  have hidx : (runWriter COMPRESSION_NONE id 0 [c4Op]).topic_indexes =
      [([97], [⟨⟨10, 0⟩, c4Pos, 0⟩])] := rfl
  have hcd : (runWriter COMPRESSION_NONE id 0 [c4Op]).chunk_datas =
      [(c4Pos, c4Data)] := rfl
  refine ⟨([97], [⟨⟨10, 0⟩, c4Pos, 0⟩]), ?_, ⟨⟨10, 0⟩, c4Pos, 0⟩,
    List.mem_cons_self _ _, c4Data, ?_, ?_⟩
  · rw [hidx]
    exact List.mem_cons_self _ _
  · rw [hcd]
    exact List.mem_cons_self _ _
  · exact ⟨msgDefFields c4Info, 0,
      8 + (encodeHeaderFields (msgDefFields c4Info)).length, by decide,
      readOpField_msgDefFields c4Info⟩

/-- C9: `getMessages` returns exactly the index entries, over all topics
having both a `TopicInfo` and a topic index, whose time `t` satisfies
`startTime ≤ t` and `t ≤ endTime` — inclusive at both ends — with no
ordering guarantee across topics (membership characterisation). -/
theorem claim_c9_getMessages (infos : List (List Nat × TopicInfo))
    (indexes : List (List Nat × List IndexEntry)) (s e : BagTime)
    (topic : List Nat) (i : Nat) (entry : IndexEntry) :
    (⟨topic, i, entry⟩ : MergeItem) ∈ getMessages infos indexes s e ↔
      ((∃ info, (topic, info) ∈ infos) ∧
       (∃ idx, lookupAssoc indexes topic = some idx ∧ idx[i]? = some entry) ∧
       timeLE s entry.time ∧ timeLE entry.time e) := by
  unfold getMessages
  rw [List.mem_flatMap]
  constructor
  · rintro ⟨p, hp, hmem⟩
    obtain ⟨ptopic, pinfo⟩ := p
    cases hl : lookupAssoc indexes ptopic with
    | none =>
      rw [hl] at hmem
      cases hmem
    | some idx =>
      rw [hl] at hmem
      simp only [List.mem_map, List.mem_filter] at hmem
      obtain ⟨⟨j, ent⟩, ⟨hin, hfilt⟩, heq⟩ := hmem
      have heq2 : ptopic = topic ∧ j = i ∧ ent = entry := by
        simpa [MergeItem.mk.injEq] using heq
      obtain ⟨rfl, rfl, rfl⟩ := heq2
      rw [Bool.and_eq_true] at hfilt
      refine ⟨⟨pinfo, hp⟩, ⟨idx, hl, List.mk_mem_enum_iff_getElem?.mp hin⟩,
        ?_, ?_⟩
      · exact of_decide_eq_true hfilt.1
      · exact of_decide_eq_true hfilt.2
  · rintro ⟨⟨info, hinfo⟩, ⟨idx, hidx, hget⟩, hs, he⟩
    refine ⟨(topic, info), hinfo, ?_⟩
    simp only [hidx, List.mem_map, List.mem_filter]
    refine ⟨(i, entry), ⟨List.mk_mem_enum_iff_getElem?.mpr hget, ?_⟩, rfl⟩
    rw [Bool.and_eq_true]
    exact ⟨decide_eq_true hs, decide_eq_true he⟩

theorem claim_c10_witness :
    readMessageDefinitionRecord
      (msgDefRecord ⟨[97], [100], [116], List.replicate 32 48⟩) 0
      [([97], ⟨[97], [1], [2], [3]⟩)] =
      some (8 + (encodeHeaderFields
        (msgDefFields ⟨[97], [100], [116], List.replicate 32 48⟩)).length,
        [([97], ⟨[97], [1], [2], [3]⟩)]) :=
  claim_c10_duplicate_def _ 0 _
    (msgDefFields ⟨[97], [100], [116], List.replicate 32 48⟩) 0 _
    [97] (List.replicate 32 48) [116] [100] ⟨[97], [1], [2], [3]⟩
    (by decide) (by decide) (by decide) (by decide) (by decide) (by decide)
    (by decide)

/-- C8: if every per-topic index is sorted non-decreasing by time, then for
every topic list without duplicates and every time range, the sequence
returned by `getMessagesByTopic` is non-decreasing in time globally, and no
index entry (identified by its topic and its position in that topic's
index) is emitted twice. -/
theorem claim_c8_merge (indexes : List (List Nat × List IndexEntry))
    (infos : List (List Nat × TopicInfo)) (topics : List (List Nat))
    (s e : BagTime)
    (hsorted : ∀ p ∈ indexes,
      List.Pairwise (fun a b : IndexEntry => timeLE a.time b.time) p.2)
    (hnodup : topics.Nodup) :
    List.Pairwise (fun a b : MergeItem => timeLE a.entry.time b.entry.time)
      (getMessagesByTopic indexes infos topics s e) ∧
    ((getMessagesByTopic indexes infos topics s e).map
      fun it => (it.topic, it.pos)).Nodup := by
  rw [show getMessagesByTopic indexes infos topics s e =
      mergeLoop
        (totalRem (topics.filterMap (mkMergeHelper indexes infos s e)) +
          (topics.filterMap (mkMergeHelper indexes infos s e)).length)
        (topics.filterMap (mkMergeHelper indexes infos s e)) from rfl]
  constructor
  · apply mergeLoop_sorted
    intro h hh
    rcases List.mem_filterMap.mp hh with ⟨a, _, hma⟩
    exact mkMergeHelper_sorted hsorted hma
  · have hperm := mergeLoop_perm
      (totalRem (topics.filterMap (mkMergeHelper indexes infos s e)) +
        (topics.filterMap (mkMergeHelper indexes infos s e)).length)
      (topics.filterMap (mkMergeHelper indexes infos s e)) (Nat.le_refl _)
    have hmap := hperm.map fun it : MergeItem => (it.topic, it.pos)
    rw [hmap.nodup_iff]
    rw [List.map_flatMap]
    rw [List.nodup_flatMap]
    constructor
    · intro h hh
      exact itemsFrom_proj_nodup h.topic h.pos h.rem
    · have htopics : ((topics.filterMap
          (mkMergeHelper indexes infos s e)).map fun h => h.topic).Nodup :=
        List.Nodup.sublist
          (filterMap_mkMergeHelper_topics indexes infos s e topics) hnodup
      have hpw := List.pairwise_map.mp htopics
      refine hpw.imp ?_
      intro h1 h2 hne
      intro x hx1 hx2
      rcases List.mem_map.mp hx1 with ⟨y1, hy1, hp1⟩
      rcases List.mem_map.mp hx2 with ⟨y2, hy2, hp2⟩
      have ht1 := (itemsFrom_mem_pos h1.topic h1.pos h1.rem y1 hy1).1
      have ht2 := (itemsFrom_mem_pos h2.topic h2.pos h2.rem y2 hy2).1
      have hx1t : x.1 = h1.topic := by rw [← hp1]; exact ht1
      have hx2t : x.1 = h2.topic := by rw [← hp2]; exact ht2
      exact hne (hx1t.symm.trans hx2t)

/-- C8 counterexample to the "for every topic list" reading: requesting
the same topic twice emits each of its index entries twice, so the
(topic, index position) projection of the output is not duplicate-free. -/
theorem claim_c8_counterexample :
    ¬ (((getMessagesByTopic [([97], [⟨⟨1, 0⟩, 100, 0⟩])]
          [([97], ⟨[97], [], [], []⟩)] [[97], [97]] ⟨0, 0⟩ ⟨5, 0⟩).map
        fun it => (it.topic, it.pos)).Nodup) := by decide

theorem claim_c8_witness :
    List.Pairwise (fun a b : MergeItem => timeLE a.entry.time b.entry.time)
      (getMessagesByTopic
        [([97], [⟨⟨1, 0⟩, 100, 0⟩, ⟨⟨2, 0⟩, 100, 12⟩]),
         ([98], [⟨⟨1, 5⟩, 200, 0⟩])]
        [([97], ⟨[97], [], [], []⟩), ([98], ⟨[98], [], [], []⟩)]
        [[97], [98]] ⟨0, 0⟩ ⟨9, 0⟩) ∧
    ((getMessagesByTopic
        [([97], [⟨⟨1, 0⟩, 100, 0⟩, ⟨⟨2, 0⟩, 100, 12⟩]),
         ([98], [⟨⟨1, 5⟩, 200, 0⟩])]
        [([97], ⟨[97], [], [], []⟩), ([98], ⟨[98], [], [], []⟩)]
        [[97], [98]] ⟨0, 0⟩ ⟨9, 0⟩).map
      fun it => (it.topic, it.pos)).Nodup :=
  claim_c8_merge
    [([97], [⟨⟨1, 0⟩, 100, 0⟩, ⟨⟨2, 0⟩, 100, 12⟩]),
     ([98], [⟨⟨1, 5⟩, 200, 0⟩])]
    [([97], ⟨[97], [], [], []⟩), ([98], ⟨[98], [], [], []⟩)]
    [[97], [98]] ⟨0, 0⟩ ⟨9, 0⟩ (by decide) (by decide)

/-- C4 (amended): for every index entry `e` recorded under topic `T` by a
completed writer run, there is a `ChunkInfo c` with `c.pos = e.chunk_pos`,
and parsing the uncompressed data of that chunk at `e.offset` — stepping
over any message-definition record written there, as the reader's skip
loop does — yields a MSG_DATA record whose topic field equals `T` and
whose time field equals `e.time`.  (The record that *starts* at `e.offset`
may be a MSG_DEF record: the offset is captured before the definition
record is emitted, see the counterexample.) -/
theorem claim_c4_index_to_chunk (compression : List Nat)
    (compressFn : List Nat → List Nat) (chunkThreshold : Nat)
    (ops : List WriteOp) (hops : ∀ op ∈ ops, WFOp op)
    (p : List Nat × List IndexEntry) (e : IndexEntry)
    (hp : p ∈ (runWriter compression compressFn chunkThreshold ops).topic_indexes)
    (he : e ∈ p.2) :
    ∃ c ∈ (runWriter compression compressFn chunkThreshold ops).chunk_infos,
      c.pos = e.chunk_pos ∧
      ∃ d, (c.pos, d) ∈
          (runWriter compression compressFn chunkThreshold ops).chunk_datas ∧
        ∃ fs payload,
          readMessageRecordInBuffer d e.offset = some (fs, payload) ∧
          readStringField fs topicKey = some p.1 ∧
          readTimeField fs timeKey = some e.time := by
  have hclosed : ClosedInv (runWriter compression compressFn chunkThreshold ops) :=
    stopWritingVersion103_inv compression compressFn
      (foldl_doWrite_inv compression compressFn chunkThreshold ops
        startWritingVersion103 hops startWritingVersion103_inv)
  rcases hclosed p hp e he with ⟨c, hcm, hcp, d, hdm, hgood⟩
  have hgood2 : p.1 ≠ [] ∧ p.1.length < 2 ^ 20 ∧
      e.time.sec < 2 ^ 32 ∧ e.time.nsec < 2 ^ 32 ∧
      ∃ payload, readMessageRecordInBuffer d e.offset =
        some (msgDataFields p.1 e.time, payload) := hgood
  obtain ⟨hne2, hlen2, hsec2, hnsec2, payload, hread⟩ := hgood2
  exact ⟨c, hcm, hcp, d, hdm, msgDataFields p.1 e.time, payload, hread,
    readStringField_msgDataFields p.1 e.time hne2 hlen2,
    readTimeField_msgDataFields p.1 e.time hsec2 hnsec2⟩

set_option maxRecDepth 4000 in
theorem claim_c4_witness :
    ∃ c ∈ (runWriter COMPRESSION_NONE id 0 [c4Op]).chunk_infos,
      c.pos = (⟨⟨10, 0⟩, c4Pos, 0⟩ : IndexEntry).chunk_pos ∧
      ∃ d, (c.pos, d) ∈ (runWriter COMPRESSION_NONE id 0 [c4Op]).chunk_datas ∧
        ∃ fs payload,
          readMessageRecordInBuffer d
              (⟨⟨10, 0⟩, c4Pos, 0⟩ : IndexEntry).offset = some (fs, payload) ∧
          readStringField fs topicKey =
            some (([97], [(⟨⟨10, 0⟩, c4Pos, 0⟩ : IndexEntry)]) :
              List Nat × List IndexEntry).1 ∧
          readTimeField fs timeKey =
            some (⟨⟨10, 0⟩, c4Pos, 0⟩ : IndexEntry).time :=
  claim_c4_index_to_chunk COMPRESSION_NONE id 0 [c4Op]
    (by
      intro op hop
      rw [List.mem_singleton] at hop
      subst hop
      refine ⟨by decide, by decide, by decide, by decide, by decide,
        by decide, by decide, by decide⟩)
    ([97], [⟨⟨10, 0⟩, c4Pos, 0⟩]) ⟨⟨10, 0⟩, c4Pos, 0⟩
    (List.mem_cons_self _ _) (List.mem_cons_self _ _)

end Rosbag
